import Mathlib

/-!
Verification of the celtic-knot weaving engine (`celtic-knot.py`).

The Python code operates on Blender `bmesh` half-edge meshes.  We embed that
data model shallowly: a mesh is a record of vertex positions, edges, faces and
loops, where loops carry the `link_loop_next` / `link_loop_prev` face-cycle
pointers and the `link_loops` radial list (the other loops sharing the same
edge, which is empty exactly for loops on a one-face "boundary" edge).
Indices are positional, matching `bmesh` after `index_update()`.

Vertex coordinates are modelled as rational 3-vectors; none of the verified
claims depend on floating-point behaviour, only on which coordinates are
copied or averaged.
-/

set_option maxHeartbeats 1000000

/-- The twist labels of `celtic-knot.py` (module level string constants). -/
inductive Twist where
  | TWIST_CW
  | STRAIGHT
  | TWIST_CCW
  | IGNORE
deriving DecidableEq, Repr, Inhabited

open Twist

/-- 3D coordinates (`mathutils.Vector` of the host), modelled over ℚ. -/
abbrev Vec3 : Type := ℚ × ℚ × ℚ

/-- A bmesh loop: its vertex, its edge, its face, the face-cycle successor and
predecessor (`link_loop_next` / `link_loop_prev`), and the radial list
`link_loops` of the *other* loops sharing its edge. -/
structure BLoop where
  vertIdx : Nat
  edgeIdx : Nat
  faceIdx : Nat
  nextIdx : Nat
  prevIdx : Nat
  radial : List Nat
deriving DecidableEq, Repr, Inhabited

/-- A bmesh edge: its two endpoint vertex indices (`edge.verts`) and
`edge.link_loops`, the list of all loops lying on this edge. -/
structure BEdge where
  v1 : Nat
  v2 : Nat
  link_loops : List Nat
deriving DecidableEq, Repr, Inhabited

/-- A bmesh: parallel arenas of vertices (positions), edges, faces (each a
cyclically ordered list of loop indices) and loops. -/
structure BMesh where
  verts : List Vec3
  edges : List BEdge
  faces : List (List Nat)
  loops : List BLoop
deriving DecidableEq, Repr, Inhabited

def BMesh.loopAt (m : BMesh) (l : Nat) : BLoop := m.loops.getD l default

def BMesh.edgeAt (m : BMesh) (e : Nat) : BEdge := m.edges.getD e default

def BMesh.faceAt (m : BMesh) (f : Nat) : List Nat := m.faces.getD f []

/-- `is_boundary(loop)`: a loop on a one-face edge, `len(loop.link_loops) == 0`. -/
def is_boundary (m : BMesh) (l : Nat) : Bool := (m.loopAt l).radial.isEmpty

/-- Well-formedness of the embedded bmesh, the invariants Blender's `bmesh`
guarantees for the (manifold-or-boundary) meshes the plugin operates on:
indices are in range; every face is a nonempty duplicate-free cycle whose
loops' `next`/`prev` pointers follow the cycle; every loop lies on its own
face's cycle; the radial list of a loop consists exactly of the *other*
loops sharing its edge, symmetrically; `edge.link_loops` lists exactly the
loops lying on that edge. -/
def WF (m : BMesh) : Prop :=
  (∀ l < m.loops.length,
      (m.loopAt l).vertIdx < m.verts.length ∧
      (m.loopAt l).edgeIdx < m.edges.length ∧
      (m.loopAt l).faceIdx < m.faces.length) ∧
  (∀ f < m.faces.length,
      m.faceAt f ≠ [] ∧ (m.faceAt f).Nodup ∧
      ∀ i < (m.faceAt f).length,
        (m.faceAt f).getD i 0 < m.loops.length ∧
        (m.loopAt ((m.faceAt f).getD i 0)).faceIdx = f ∧
        (m.loopAt ((m.faceAt f).getD i 0)).nextIdx
          = (m.faceAt f).getD ((i + 1) % (m.faceAt f).length) 0 ∧
        (m.loopAt ((m.faceAt f).getD i 0)).prevIdx
          = (m.faceAt f).getD ((i + (m.faceAt f).length - 1) % (m.faceAt f).length) 0) ∧
  (∀ l < m.loops.length, l ∈ m.faceAt (m.loopAt l).faceIdx) ∧
  (∀ l < m.loops.length, ∀ l' ∈ (m.loopAt l).radial,
      l' < m.loops.length ∧ l' ≠ l ∧
      (m.loopAt l').edgeIdx = (m.loopAt l).edgeIdx ∧
      l ∈ (m.loopAt l').radial) ∧
  (∀ l < m.loops.length, ∀ l' < m.loops.length,
      (l' ≠ l ∧ (m.loopAt l').edgeIdx = (m.loopAt l).edgeIdx) → l' ∈ (m.loopAt l).radial) ∧
  (∀ e < m.edges.length,
      (∀ l ∈ (m.edgeAt e).link_loops, l < m.loops.length ∧ (m.loopAt l).edgeIdx = e) ∧
      (∀ l < m.loops.length, (m.loopAt l).edgeIdx = e → l ∈ (m.edgeAt e).link_loops))

set_option synthInstance.maxSize 1024 in
set_option synthInstance.maxHeartbeats 1000000 in
instance (m : BMesh) : Decidable (WF m) := by
  unfold WF
  infer_instance

/-! ## Remeshing operations -/

/-- `lerp(v1, v2, t)` from the source (componentwise on vectors). -/
def lerp (v1 v2 t : ℚ) : ℚ := v1 * (1 - t) + v2 * t

/-- `cyclic_zip(l)`: pairs of cyclically consecutive entries,
`(l[0],l[1]), ..., (l[-1],l[0])`; empty for the empty list. -/
def cyclic_zip {α : Type} : List α → List (α × α)
  | [] => []
  | x :: xs => List.zip (x :: xs) (xs ++ [x])

/-- `edge_midpoint(edge)`: `(v1.co + v2.co) / 2`. -/
def edge_midpoint (m : BMesh) (e : BEdge) : Vec3 :=
  let p1 := m.verts.getD e.v1 default
  let p2 := m.verts.getD e.v2 default
  ((p1.1 + p2.1) / 2, (p1.2.1 + p2.2.1) / 2, (p1.2.2 + p2.2.2) / 2)

/-- `remesh_midedge_subdivision(bm)`, up to (but not including) the final
`bmesh_from_pydata` call: the list of new vertex positions and the list of
new faces (as vertex-index lists).  `vert_index_to_new_index` maps the i-th
vertex to `i` and `edge_index_to_new_index` maps the j-th edge to `V + j`,
exactly as the two accumulation loops of the source produce (vertex and edge
indices are positional). -/
def remesh_midedge_subdivision (m : BMesh) : List Vec3 × List (List Nat) :=
  let V := m.verts.length
  let new_verts := m.verts ++ m.edges.map (edge_midpoint m)
  let new_faces := m.faces.map (fun fs =>
    fs.flatMap (fun l => [(m.loopAt l).vertIdx, V + (m.loopAt l).edgeIdx]))
  (new_verts, new_faces)

/-- `remesh_medial(bm)`, up to the final `bmesh_from_pydata` call: new vertex
positions (original positions then edge midpoints) and new faces — first one
medial polygon per original face (its loops' edge midpoints in order), then,
for each face and each cyclically adjacent pair of its loops `(loop1, loop2)`
as produced by `cyclic_zip`, the triangle `[v0, v2, v1]` with
`v0 = loop2.vert`, `v1 = loop1.edge` midpoint, `v2 = loop2.edge` midpoint. -/
def remesh_medial (m : BMesh) : List Vec3 × List (List Nat) :=
  let V := m.verts.length
  let new_verts := m.verts ++ m.edges.map (edge_midpoint m)
  let medial_faces := m.faces.map (fun fs => fs.map (fun l => V + (m.loopAt l).edgeIdx))
  let tri_faces := m.faces.flatMap (fun fs =>
    (cyclic_zip fs).map (fun p =>
      [(m.loopAt p.2).vertIdx, V + (m.loopAt p.2).edgeIdx, V + (m.loopAt p.1).edgeIdx]))
  (new_verts, medial_faces ++ tri_faces)

/-! ## Generic list lemmas used for the remesh claims -/

theorem flatMap_pair_length (g1 g2 : Nat → Nat) (fs : List Nat) :
    (fs.flatMap (fun l => [g1 l, g2 l])).length = 2 * fs.length := by
  induction fs with
  | nil => simp
  | cons x xs ih =>
    simp only [List.flatMap_cons, List.length_append, List.length_cons, List.length_nil, ih]
    omega

theorem flatMap_pair_getD_even (g1 g2 : Nat → Nat) (fs : List Nat)
    (i : Nat) (hi : i < fs.length) :
    (fs.flatMap (fun l => [g1 l, g2 l])).getD (2 * i) 0 = g1 (fs.getD i 0) := by
  induction fs generalizing i with
  | nil => simp at hi
  | cons x xs ih =>
    cases i with
    | zero => simp [List.flatMap_cons]
    | succ j =>
      have hj : j < xs.length := by simpa using hi
      have h2 : 2 * (j + 1) = (2 * j) + 1 + 1 := by ring
      simp only [List.flatMap_cons, h2, List.cons_append, List.getD_cons_succ]
      simpa using ih j hj

theorem flatMap_pair_getD_odd (g1 g2 : Nat → Nat) (fs : List Nat)
    (i : Nat) (hi : i < fs.length) :
    (fs.flatMap (fun l => [g1 l, g2 l])).getD (2 * i + 1) 0 = g2 (fs.getD i 0) := by
  induction fs generalizing i with
  | nil => simp at hi
  | cons x xs ih =>
    cases i with
    | zero => simp [List.flatMap_cons]
    | succ j =>
      have hj : j < xs.length := by simpa using hi
      have h2 : 2 * (j + 1) + 1 = (2 * j + 1) + 1 + 1 := by ring
      simp only [List.flatMap_cons, h2, List.cons_append, List.getD_cons_succ]
      simpa using ih j hj

/-- C5 (part of the statement): the subdivision emits one face per original
face, of twice the arity, alternating original-vertex entries and
midpoint-vertex entries. -/
theorem remesh_midedge_subdivision_spec (m : BMesh) (hwf : WF m) :
    (remesh_midedge_subdivision m).1.length = m.verts.length + m.edges.length ∧
    (remesh_midedge_subdivision m).2.length = m.faces.length ∧
    (∀ v < m.verts.length,
        (remesh_midedge_subdivision m).1.getD v default = m.verts.getD v default) ∧
    (∀ e < m.edges.length,
        (remesh_midedge_subdivision m).1.getD (m.verts.length + e) default
          = edge_midpoint m (m.edges.getD e default)) ∧
    (∀ f < m.faces.length,
      ((remesh_midedge_subdivision m).2.getD f []).length = 2 * (m.faceAt f).length ∧
      ∀ i < (m.faceAt f).length,
        ((remesh_midedge_subdivision m).2.getD f []).getD (2 * i) 0
            = (m.loopAt ((m.faceAt f).getD i 0)).vertIdx ∧
        ((remesh_midedge_subdivision m).2.getD f []).getD (2 * i) 0 < m.verts.length ∧
        ((remesh_midedge_subdivision m).2.getD f []).getD (2 * i + 1) 0
            = m.verts.length + (m.loopAt ((m.faceAt f).getD i 0)).edgeIdx ∧
        m.verts.length ≤ ((remesh_midedge_subdivision m).2.getD f []).getD (2 * i + 1) 0) := by
  obtain ⟨hloop, hface, hmem, hrad, hradc, hedge⟩ := hwf
  refine ⟨by simp [remesh_midedge_subdivision], by simp [remesh_midedge_subdivision], ?_, ?_, ?_⟩
  · intro v hv
    simp only [remesh_midedge_subdivision]
    exact List.getD_append _ _ _ _ hv
  · intro e he
    simp only [remesh_midedge_subdivision]
    rw [List.getD_append_right _ _ _ _ (by omega)]
    have h0 : m.verts.length + e - m.verts.length = e := by omega
    rw [h0, List.getD_eq_getElem?_getD, List.getElem?_map, List.getElem?_eq_getElem he]
    simp [List.getD_eq_getElem?_getD, List.getElem?_eq_getElem he]
  · intro f hf
    have hfd : (remesh_midedge_subdivision m).2.getD f []
        = (m.faceAt f).flatMap
            (fun l => [(m.loopAt l).vertIdx, m.verts.length + (m.loopAt l).edgeIdx]) := by
      simp only [remesh_midedge_subdivision]
      rw [List.getD_eq_getElem?_getD, List.getElem?_map, List.getElem?_eq_getElem hf]
      simp [BMesh.faceAt, List.getD_eq_getElem?_getD, List.getElem?_eq_getElem hf]
    refine ⟨by rw [hfd]; exact flatMap_pair_length _ _ _, ?_⟩
    intro i hi
    have hl := (hface f hf).2.2 i hi
    have hlt : (m.faceAt f).getD i 0 < m.loops.length := hl.1
    have hv := (hloop _ hlt).1
    have he := (hloop _ hlt).2.1
    rw [hfd]
    refine ⟨?_, ?_, ?_, ?_⟩
    · simpa using flatMap_pair_getD_even _ _ (m.faceAt f) i hi
    · have := flatMap_pair_getD_even
        (fun l => (m.loopAt l).vertIdx)
        (fun l => m.verts.length + (m.loopAt l).edgeIdx) (m.faceAt f) i hi
      simp only [this]
      simpa using hv
    · simpa using flatMap_pair_getD_odd _ _ (m.faceAt f) i hi
    · have := flatMap_pair_getD_odd
        (fun l => (m.loopAt l).vertIdx)
        (fun l => m.verts.length + (m.loopAt l).edgeIdx) (m.faceAt f) i hi
      simp only [this]
      omega

/-! ## Edge construction of `bmesh_from_pydata`

`bmesh_from_pydata` feeds the produced vertex/face lists back into a fresh
bmesh: `bm.faces.new(...)` creates, for every cyclically consecutive vertex
pair of a face, the connecting edge — unless an edge with the same unordered
endpoints already exists, in which case that edge is reused — and
`edges.index_update()` numbers the edges in creation order.  We model exactly
this edge-building behaviour of the (external) bmesh library: the ordered
list of created edges (as endpoint pairs) together with, for each face, the
list of the indices of its bounding edges in loop order (`face.edges`). -/

/-- Index of an existing edge with unordered endpoints `{a, b}`, if any. -/
def findEdgeIdx (es : List (Nat × Nat)) (a b : Nat) : Option Nat :=
  match es with
  | [] => none
  | e :: rest =>
    if (e.1 = a ∧ e.2 = b) ∨ (e.1 = b ∧ e.2 = a) then some 0
    else (findEdgeIdx rest a b).map (· + 1)

/-- The edge at index `i` has (unordered) endpoints `{a, b}`. -/
def edgeMatches (es : List (Nat × Nat)) (i a b : Nat) : Prop :=
  ((es.getD i (0, 0)).1 = a ∧ (es.getD i (0, 0)).2 = b) ∨
  ((es.getD i (0, 0)).1 = b ∧ (es.getD i (0, 0)).2 = a)

/-- One `faces.new` edge-creation step for one vertex pair. -/
def afeStep (acc : List (Nat × Nat) × List Nat) (p : Nat × Nat) :
    List (Nat × Nat) × List Nat :=
  match findEdgeIdx acc.1 p.1 p.2 with
  | some i => (acc.1, acc.2 ++ [i])
  | none => (acc.1 ++ [(p.1, p.2)], acc.2 ++ [acc.1.length])

/-- Edges created (or found) for one face's cyclic vertex pairs. -/
def addFaceEdges (es : List (Nat × Nat)) (fverts : List Nat) :
    List (Nat × Nat) × List Nat :=
  (cyclic_zip fverts).foldl afeStep (es, [])

/-- The full edge construction over all faces: the created edge list in
creation order, and one bounding-edge index list per face. -/
def buildEdges (faces : List (List Nat)) : List (Nat × Nat) × List (List Nat) :=
  faces.foldl (fun acc fverts =>
    let r := addFaceEdges acc.1 fverts
    (r.1, acc.2 ++ [r.2])) ([], [])

theorem findEdgeIdx_some (es : List (Nat × Nat)) (a b i : Nat)
    (h : findEdgeIdx es a b = some i) : i < es.length ∧ edgeMatches es i a b := by
  induction es generalizing i with
  | nil => simp [findEdgeIdx] at h
  | cons e rest ih =>
    rw [findEdgeIdx] at h
    by_cases hp : (e.1 = a ∧ e.2 = b) ∨ (e.1 = b ∧ e.2 = a)
    · simp only [if_pos hp] at h
      cases h
      exact ⟨by simp, by simpa [edgeMatches] using hp⟩
    · simp only [if_neg hp] at h
      match h2 : findEdgeIdx rest a b with
      | none => rw [h2] at h; simp at h
      | some j =>
        rw [h2] at h
        simp only [Option.map] at h
        cases h
        obtain ⟨hlt, hm⟩ := ih j h2
        exact ⟨by simpa using Nat.succ_lt_succ hlt, by simpa [edgeMatches] using hm⟩

theorem edgeMatches_append (es ext : List (Nat × Nat)) (i a b : Nat)
    (hi : i < es.length) (h : edgeMatches es i a b) : edgeMatches (es ++ ext) i a b := by
  unfold edgeMatches at *
  rwa [List.getD_append _ _ _ _ hi]

theorem afe_fold (ps : List (Nat × Nat)) (es0 : List (Nat × Nat)) (out0 : List Nat) :
    ∃ ext oxt,
      (ps.foldl afeStep (es0, out0)).1 = es0 ++ ext ∧
      (ps.foldl afeStep (es0, out0)).2 = out0 ++ oxt ∧
      (∀ i ∈ oxt, i < (es0 ++ ext).length ∧
          ∃ p ∈ ps, edgeMatches (es0 ++ ext) i p.1 p.2) ∧
      (∀ p ∈ ps, ∃ i ∈ oxt, i < (es0 ++ ext).length ∧
          edgeMatches (es0 ++ ext) i p.1 p.2) := by
  induction ps generalizing es0 out0 with
  | nil => exact ⟨[], [], by simp, by simp, by simp, by simp⟩
  | cons p ps' ih =>
    simp only [List.foldl_cons]
    cases hfi : findEdgeIdx es0 p.1 p.2 with
    | some i =>
      obtain ⟨hilt, him⟩ := findEdgeIdx_some es0 p.1 p.2 i hfi
      obtain ⟨ext, oxt', h1, h2, h3, h4⟩ := ih es0 (out0 ++ [i])
      refine ⟨ext, i :: oxt', by simpa [afeStep, hfi] using h1, ?_, ?_, ?_⟩
      · simp only [afeStep, hfi] at h2 ⊢
        rw [h2, List.append_assoc]
        rfl
      · intro i' hi'
        rcases List.mem_cons.mp hi' with rfl | hi'
        · refine ⟨by simp; omega, p, by simp, ?_⟩
          exact edgeMatches_append es0 ext i' p.1 p.2 hilt him
        · obtain ⟨hb, q, hq, hm⟩ := h3 i' hi'
          exact ⟨hb, q, by simp [hq], hm⟩
      · intro q hq
        rcases List.mem_cons.mp hq with rfl | hq
        · exact ⟨i, by simp, by simp; omega,
            edgeMatches_append es0 ext i q.1 q.2 hilt him⟩
        · obtain ⟨i', hi', hb, hm⟩ := h4 q hq
          exact ⟨i', by simp [hi'], hb, hm⟩
    | none =>
      obtain ⟨ext', oxt', h1, h2, h3, h4⟩ := ih (es0 ++ [(p.1, p.2)]) (out0 ++ [es0.length])
      have hmatch : ∀ zs, edgeMatches (es0 ++ (p.1, p.2) :: zs) es0.length p.1 p.2 := by
        intro zs
        unfold edgeMatches
        rw [List.getD_append_right _ _ _ _ (Nat.le_refl _), Nat.sub_self]
        simp
      refine ⟨(p.1, p.2) :: ext', es0.length :: oxt', ?_, ?_, ?_, ?_⟩
      · simp only [afeStep, hfi] at h1 ⊢
        rw [h1, List.append_assoc]
        rfl
      · simp only [afeStep, hfi] at h2 ⊢
        rw [h2, List.append_assoc]
        rfl
      · intro i' hi'
        rcases List.mem_cons.mp hi' with rfl | hi'
        · exact ⟨by simp, p, by simp, hmatch ext'⟩
        · obtain ⟨hb, q, hq, hm⟩ := h3 i' hi'
          rw [List.append_cons es0 _ ext']
          refine ⟨?_, q, by simp [hq], ?_⟩
          · simpa [List.append_assoc] using hb
          · simpa [List.append_assoc] using hm
      · intro q hq
        rcases List.mem_cons.mp hq with rfl | hq
        · exact ⟨es0.length, by simp, by simp, hmatch ext'⟩
        · obtain ⟨i', hi', hb, hm⟩ := h4 q hq
          rw [List.append_cons es0 _ ext']
          refine ⟨i', by simp [hi'], ?_, ?_⟩
          · simpa [List.append_assoc] using hb
          · simpa [List.append_assoc] using hm

theorem be_fold (fl : List (List Nat)) (es0 : List (Nat × Nat)) (fes0 : List (List Nat)) :
    ∃ ext fext,
      (fl.foldl (fun acc fverts =>
          let r := addFaceEdges acc.1 fverts
          (r.1, acc.2 ++ [r.2])) (es0, fes0)).1 = es0 ++ ext ∧
      (fl.foldl (fun acc fverts =>
          let r := addFaceEdges acc.1 fverts
          (r.1, acc.2 ++ [r.2])) (es0, fes0)).2 = fes0 ++ fext ∧
      fext.length = fl.length ∧
      (∀ k < fl.length,
        (∀ i ∈ fext.getD k [], i < (es0 ++ ext).length ∧
            ∃ p ∈ cyclic_zip (fl.getD k []), edgeMatches (es0 ++ ext) i p.1 p.2) ∧
        (∀ p ∈ cyclic_zip (fl.getD k []), ∃ i ∈ fext.getD k [],
            edgeMatches (es0 ++ ext) i p.1 p.2)) := by
  induction fl generalizing es0 fes0 with
  | nil => exact ⟨[], [], by simp, by simp, by simp, by simp⟩
  | cons fv fl' ih =>
    obtain ⟨ext1, oxt1, ha1, ha2, ha3, ha4⟩ := afe_fold (cyclic_zip fv) es0 []
    have hdef : (cyclic_zip fv).foldl afeStep (es0, []) = addFaceEdges es0 fv := rfl
    rw [hdef] at ha1 ha2
    simp only [List.nil_append] at ha2
    obtain ⟨ext2, fext2, h1, h2, h3, h4⟩ :=
      ih (addFaceEdges es0 fv).1 (fes0 ++ [(addFaceEdges es0 fv).2])
    refine ⟨ext1 ++ ext2, (addFaceEdges es0 fv).2 :: fext2, ?_, ?_, by simp [h3], ?_⟩
    · simp only [List.foldl_cons]
      rw [h1, ha1, List.append_assoc]
    · simp only [List.foldl_cons]
      rw [h2, List.append_assoc]
      rfl
    · intro k hk
      cases k with
      | zero =>
        constructor
        · intro i hi
          rw [ha2] at hi
          obtain ⟨hb, p, hp, hm⟩ := ha3 i hi
          have hb' : i < (es0 ++ ext1).length := hb
          rw [← List.append_assoc]
          refine ⟨by simp at hb' ⊢; omega, p, by simpa using hp, ?_⟩
          exact edgeMatches_append _ ext2 i p.1 p.2 hb' hm
        · intro p hp
          obtain ⟨i, hi, hb, hm⟩ := ha4 p (by simpa using hp)
          refine ⟨i, by simp [ha2, hi], ?_⟩
          rw [← List.append_assoc]
          exact edgeMatches_append _ ext2 i p.1 p.2 hb hm
      | succ k' =>
        have hk' : k' < fl'.length := by simpa using hk
        have hres := h4 k' hk'
        rw [ha1, List.append_assoc] at hres
        simpa using hres

/-! ## The medial closed-form twist assignment -/

/-- `get_medial_twill_twists(bm, orig_face_len)`: start from every edge
`TWIST_CW`, then for each of the first `orig_face_len` faces set the twist of
each of its bounding edges (`face.edges`) to `TWIST_CCW`.  The bmesh argument
is represented by its edge count and the per-face bounding-edge index lists
(the `buildEdges` output for a mesh created by `bmesh_from_pydata`). -/
def get_medial_twill_twists (numEdges : Nat) (faceEdges : List (List Nat))
    (orig_face_len : Nat) : List Twist :=
  (faceEdges.take orig_face_len).foldl
    (fun tw fe => fe.foldl (fun tw2 e => tw2.set e TWIST_CCW) tw)
    (List.replicate numEdges TWIST_CW)

theorem getD_set_twist (l : List Twist) (i e : Nat) (v d : Twist) :
    (l.set i v).getD e d = if i = e ∧ i < l.length then v else l.getD e d := by
  rw [List.getD_eq_getElem?_getD, List.getElem?_set, List.getD_eq_getElem?_getD]
  by_cases h1 : i = e
  · subst h1
    by_cases h2 : i < l.length
    · simp [h2]
    · have : l[i]? = none := List.getElem?_eq_none (by omega)
      simp [h2, this]
  · simp [h1]

theorem foldl_set_length (fe : List Nat) (tw : List Twist) (v : Twist) :
    (fe.foldl (fun t i => t.set i v) tw).length = tw.length := by
  induction fe generalizing tw with
  | nil => rfl
  | cons i rest ih => simp [ih]

theorem foldl_set_getD (fe : List Nat) (tw : List Twist) (v d : Twist) (e : Nat) :
    (fe.foldl (fun t i => t.set i v) tw).getD e d
      = if e ∈ fe ∧ e < tw.length then v else tw.getD e d := by
  induction fe generalizing tw with
  | nil => simp
  | cons i rest ih =>
    simp only [List.foldl_cons]
    rw [ih, List.length_set]
    by_cases h1 : e ∈ rest ∧ e < tw.length
    · rw [if_pos h1, if_pos ⟨List.mem_cons_of_mem i h1.1, h1.2⟩]
    · rw [if_neg h1, getD_set_twist]
      by_cases h2 : i = e ∧ i < tw.length
      · rw [if_pos h2, if_pos ⟨by simp [← h2.1], by omega⟩]
      · rw [if_neg h2, if_neg ?_]
        rintro ⟨hmem, hlt⟩
        rcases List.mem_cons.mp hmem with rfl | hmem
        · exact h2 ⟨rfl, hlt⟩
        · exact h1 ⟨hmem, hlt⟩

theorem foldl_faces_getD (fl : List (List Nat)) (tw : List Twist) (d : Twist) (e : Nat) :
    (fl.foldl (fun t fe => fe.foldl (fun t2 i => t2.set i TWIST_CCW) t) tw).getD e d
      = if (∃ fe ∈ fl, e ∈ fe) ∧ e < tw.length then TWIST_CCW else tw.getD e d := by
  induction fl generalizing tw with
  | nil => simp
  | cons fe fl' ih =>
    simp only [List.foldl_cons]
    rw [ih, foldl_set_length]
    by_cases h1 : (∃ g ∈ fl', e ∈ g) ∧ e < tw.length
    · rw [if_pos h1, if_pos ⟨⟨h1.1.choose, List.mem_cons_of_mem fe h1.1.choose_spec.1,
        h1.1.choose_spec.2⟩, h1.2⟩]
    · rw [if_neg h1, foldl_set_getD]
      by_cases h2 : e ∈ fe ∧ e < tw.length
      · rw [if_pos h2, if_pos ⟨⟨fe, List.mem_cons_self fe fl', h2.1⟩, h2.2⟩]
      · rw [if_neg h2, if_neg ?_]
        rintro ⟨⟨g, hg, hmem⟩, hlt⟩
        rcases List.mem_cons.mp hg with rfl | hg
        · exact h2 ⟨hmem, hlt⟩
        · exact h1 ⟨⟨g, hg, hmem⟩, hlt⟩

theorem foldl_faces_length (fl : List (List Nat)) (tw : List Twist) :
    (fl.foldl (fun t fe => fe.foldl (fun t2 i => t2.set i TWIST_CCW) t) tw).length
      = tw.length := by
  induction fl generalizing tw with
  | nil => rfl
  | cons fe fl' ih => simp only [List.foldl_cons]; rw [ih, foldl_set_length]

theorem get_medial_twill_twists_length (n : Nat) (fes : List (List Nat)) (ofl : Nat) :
    (get_medial_twill_twists n fes ofl).length = n := by
  unfold get_medial_twill_twists
  rw [foldl_faces_length, List.length_replicate]

/-- C4: after the medial remesh, the closed-form labeling marks `TWIST_CCW`
exactly on the edges bounding the first `orig_face_len` faces of the remeshed
mesh — which are precisely the original-face medial polygons — and `TWIST_CW`
on every other edge.  The last two conjuncts identify the bounding-edge lists
with real bounding edges: each recorded edge index is an edge of the mesh
whose endpoints are a cyclically consecutive vertex pair of the polygon, and
every such pair has its edge recorded. -/
theorem get_medial_twill_twists_spec (m : BMesh) :
    (remesh_medial m).2.take m.faces.length
        = m.faces.map (fun fs => fs.map (fun l => m.verts.length + (m.loopAt l).edgeIdx)) ∧
    (get_medial_twill_twists (buildEdges (remesh_medial m).2).1.length
        (buildEdges (remesh_medial m).2).2 m.faces.length).length
      = (buildEdges (remesh_medial m).2).1.length ∧
    (∀ e < (buildEdges (remesh_medial m).2).1.length,
      ((get_medial_twill_twists (buildEdges (remesh_medial m).2).1.length
          (buildEdges (remesh_medial m).2).2 m.faces.length).getD e IGNORE = TWIST_CCW
        ↔ ∃ fe ∈ (buildEdges (remesh_medial m).2).2.take m.faces.length, e ∈ fe) ∧
      ((get_medial_twill_twists (buildEdges (remesh_medial m).2).1.length
          (buildEdges (remesh_medial m).2).2 m.faces.length).getD e IGNORE = TWIST_CW
        ↔ ¬ ∃ fe ∈ (buildEdges (remesh_medial m).2).2.take m.faces.length, e ∈ fe)) ∧
    (∀ f < (remesh_medial m).2.length,
      (∀ i ∈ (buildEdges (remesh_medial m).2).2.getD f [],
          i < (buildEdges (remesh_medial m).2).1.length ∧
          ∃ p ∈ cyclic_zip ((remesh_medial m).2.getD f []),
            edgeMatches (buildEdges (remesh_medial m).2).1 i p.1 p.2) ∧
      (∀ p ∈ cyclic_zip ((remesh_medial m).2.getD f []),
          ∃ i ∈ (buildEdges (remesh_medial m).2).2.getD f [],
            edgeMatches (buildEdges (remesh_medial m).2).1 i p.1 p.2)) := by
  obtain ⟨ext, fext, hb1, hb2, hb3, hb4⟩ := be_fold (remesh_medial m).2 [] []
  have hbe1 : (buildEdges (remesh_medial m).2).1 = ext := by
    have : buildEdges (remesh_medial m).2
        = (remesh_medial m).2.foldl (fun acc fverts =>
            let r := addFaceEdges acc.1 fverts
            (r.1, acc.2 ++ [r.2])) ([], []) := rfl
    rw [this, hb1]
    rfl
  have hbe2 : (buildEdges (remesh_medial m).2).2 = fext := by
    have : buildEdges (remesh_medial m).2
        = (remesh_medial m).2.foldl (fun acc fverts =>
            let r := addFaceEdges acc.1 fverts
            (r.1, acc.2 ++ [r.2])) ([], []) := rfl
    rw [this, hb2]
    rfl
  refine ⟨?_, get_medial_twill_twists_length _ _ _, ?_, ?_⟩
  · show ((m.faces.map fun fs => fs.map fun l => m.verts.length + (m.loopAt l).edgeIdx)
        ++ _).take m.faces.length = _
    exact List.take_left' (by simp)
  · intro e he
    have hfold : (get_medial_twill_twists (buildEdges (remesh_medial m).2).1.length
        (buildEdges (remesh_medial m).2).2 m.faces.length).getD e IGNORE
        = if (∃ fe ∈ (buildEdges (remesh_medial m).2).2.take m.faces.length, e ∈ fe)
              ∧ e < (buildEdges (remesh_medial m).2).1.length
          then TWIST_CCW
          else (List.replicate (buildEdges (remesh_medial m).2).1.length TWIST_CW).getD e
            IGNORE := by
      rw [get_medial_twill_twists, foldl_faces_getD, List.length_replicate]
    have hrep : (List.replicate (buildEdges (remesh_medial m).2).1.length TWIST_CW).getD e
        IGNORE = TWIST_CW := by
      rw [List.getD_eq_getElem?_getD, List.getElem?_replicate, if_pos he]
      rfl
    by_cases hex : ∃ fe ∈ (buildEdges (remesh_medial m).2).2.take m.faces.length, e ∈ fe
    · rw [hfold, if_pos ⟨hex, he⟩]
      exact ⟨by simp [hex], by simp [hex]⟩
    · rw [hfold, if_neg (fun hc => hex hc.1), hrep]
      exact ⟨by simp [hex], by simp [hex]⟩
  · intro f hf
    have := hb4 f hf
    rw [← hbe1, ← hbe2] at this
    simpa using this

/-! ## C3: the triangles emitted by the medial remesh -/

theorem cyclic_zip_length {α : Type} (l : List α) : (cyclic_zip l).length = l.length := by
  cases l with
  | nil => rfl
  | cons x xs => simp [cyclic_zip]

theorem cyclic_zip_eq (fs : List Nat) :
    cyclic_zip fs
      = (List.range fs.length).map (fun i => (fs.getD i 0, fs.getD ((i + 1) % fs.length) 0)) := by
  cases fs with
  | nil => rfl
  | cons x xs =>
    apply List.ext_getElem
    · simp [cyclic_zip_length]
    · intro i h1 h2
      have hi : i < (x :: xs).length := by simpa [cyclic_zip_length] using h1
      have hzip : i < ((x :: xs).zip (xs ++ [x])).length := by
        simpa [cyclic_zip] using h1
      show ((x :: xs).zip (xs ++ [x])).get ⟨i, hzip⟩ = _
      have hget : ((x :: xs).zip (xs ++ [x])).get ⟨i, hzip⟩
          = ((x :: xs).get ⟨i, hi⟩, (xs ++ [x]).get ⟨i, by simp; simpa using hi⟩) := by
        simp [List.get_eq_getElem, List.getElem_zip]
      rw [hget]
      have hr : i < (List.range (x :: xs).length).length := by simpa using h2
      rw [List.getElem_map]
      have hri : (List.range (x :: xs).length)[i]? = some i :=
        List.getElem?_range (by simpa using hr)
      have hri2 : (List.range (x :: xs).length)[i] = i := by
        have := List.getElem?_eq_getElem (l := List.range (x :: xs).length) (by simpa using hr)
        rw [hri] at this
        exact (Option.some_inj.mp this.symm)
      rw [hri2]
      have hfst : (x :: xs).get ⟨i, hi⟩ = (x :: xs).getD i 0 := by
        rw [List.getD_eq_getElem?_getD, List.getElem?_eq_getElem hi]
        rfl
      have hsnd : (xs ++ [x]).get ⟨i, by simp; simpa using hi⟩
          = (x :: xs).getD ((i + 1) % (x :: xs).length) 0 := by
        rcases Nat.lt_or_ge i xs.length with hlt | hge
        · have hmod : (i + 1) % (x :: xs).length = i + 1 :=
            Nat.mod_eq_of_lt (by simp; omega)
          rw [hmod]
          have h1' : (xs ++ [x]).get ⟨i, by simp; omega⟩ = xs.get ⟨i, hlt⟩ := by
            simp [List.get_eq_getElem, List.getElem_append_left hlt]
          rw [h1']
          rw [List.getD_cons_succ, List.getD_eq_getElem?_getD, List.getElem?_eq_getElem hlt]
          rfl
        · have hieq : i = xs.length := by simp at hi; omega
          subst hieq
          have hmod : (xs.length + 1) % (x :: xs).length = 0 := by
            simp [Nat.mod_self]
          rw [hmod]
          have h1' : (xs ++ [x]).get ⟨xs.length, by simp⟩ = x := by
            simp [List.get_eq_getElem]
          rw [h1']
          rfl
      rw [hfst, hsnd]

/-- C3 (amended): the medial remesh keeps all original vertex positions,
appends one midpoint vertex per edge, and — after the per-face medial
polygons — emits exactly one triangle per (face, cyclically adjacent loop
pair), i.e. one triangle per vertex-face incidence: the triangle
`[v0, v2, v1]` whose apex `v0` is the original position of the vertex of the
second loop of the pair and whose other two corners are the midpoints of the
two edges meeting there.  In particular a vertex lying on a single face also
receives a triangle (the frozen claim's "only for vertices with ≥ 2 incident
faces" restriction does not hold; see the counterexample). -/
theorem remesh_medial_triangles_spec (m : BMesh) :
    (remesh_medial m).1.length = m.verts.length + m.edges.length ∧
    (∀ v < m.verts.length,
        (remesh_medial m).1.getD v default = m.verts.getD v default) ∧
    (∀ e < m.edges.length,
        (remesh_medial m).1.getD (m.verts.length + e) default
          = edge_midpoint m (m.edges.getD e default)) ∧
    (remesh_medial m).2.length = m.faces.length + (m.faces.map List.length).sum ∧
    (remesh_medial m).2.drop m.faces.length
      = m.faces.flatMap (fun fs => (List.range fs.length).map (fun i =>
          [(m.loopAt (fs.getD ((i + 1) % fs.length) 0)).vertIdx,
           m.verts.length + (m.loopAt (fs.getD ((i + 1) % fs.length) 0)).edgeIdx,
           m.verts.length + (m.loopAt (fs.getD i 0)).edgeIdx])) := by
  refine ⟨by simp [remesh_medial], ?_, ?_, ?_, ?_⟩
  · intro v hv
    simp only [remesh_medial]
    exact List.getD_append _ _ _ _ hv
  · intro e he
    simp only [remesh_medial]
    rw [List.getD_append_right _ _ _ _ (by omega)]
    have h0 : m.verts.length + e - m.verts.length = e := by omega
    rw [h0, List.getD_eq_getElem?_getD, List.getElem?_map, List.getElem?_eq_getElem he]
    simp [List.getD_eq_getElem?_getD, List.getElem?_eq_getElem he]
  · simp only [remesh_medial, List.length_append, List.length_map]
    congr 1
    rw [List.length_flatMap]
    congr 1
    apply List.map_congr_left
    intro fs _
    simp only [Function.comp_apply, List.length_map, cyclic_zip_length]
  · simp only [remesh_medial]
    rw [List.drop_left' (by simp)]
    apply List.flatMap_congr  -- pointwise equality of the per-face triangle lists
    intro fs _
    rw [cyclic_zip_eq, List.map_map]
    rfl

/-! ## Concrete test meshes -/

/-- A single square face; all four edges have exactly one loop, so every loop
is a boundary loop (`link_loops` of each loop is empty). -/
def quadMesh : BMesh :=
  { verts := [(0, 0, 0), (1, 0, 0), (1, 1, 0), (0, 1, 0)]
    edges := [⟨0, 1, [0]⟩, ⟨1, 2, [1]⟩, ⟨2, 3, [2]⟩, ⟨3, 0, [3]⟩]
    faces := [[0, 1, 2, 3]]
    loops := [⟨0, 0, 0, 1, 3, []⟩, ⟨1, 1, 0, 2, 0, []⟩,
              ⟨2, 2, 0, 3, 1, []⟩, ⟨3, 3, 0, 0, 2, []⟩] }

/-- A closed tetrahedron: 4 vertices, 6 edges, 4 triangular faces, 12 loops,
fully manifold (every edge has exactly two radially paired loops). -/
def tetMesh : BMesh :=
  { verts := [(0, 0, 0), (1, 0, 0), (0, 1, 0), (0, 0, 1)]
    edges := [⟨0, 1, [0, 8]⟩, ⟨0, 2, [2, 3]⟩, ⟨0, 3, [5, 6]⟩,
              ⟨1, 2, [1, 11]⟩, ⟨1, 3, [7, 9]⟩, ⟨2, 3, [4, 10]⟩]
    faces := [[0, 1, 2], [3, 4, 5], [6, 7, 8], [9, 10, 11]]
    loops := [⟨0, 0, 0, 1, 2, [8]⟩, ⟨1, 3, 0, 2, 0, [11]⟩, ⟨2, 1, 0, 0, 1, [3]⟩,
              ⟨0, 1, 1, 4, 5, [2]⟩, ⟨2, 5, 1, 5, 3, [10]⟩, ⟨3, 2, 1, 3, 4, [6]⟩,
              ⟨0, 2, 2, 7, 8, [5]⟩, ⟨3, 4, 2, 8, 6, [9]⟩, ⟨1, 0, 2, 6, 7, [0]⟩,
              ⟨1, 4, 3, 10, 11, [7]⟩, ⟨3, 5, 3, 11, 9, [4]⟩, ⟨2, 3, 3, 9, 10, [1]⟩] }

theorem quadMesh_wf : WF quadMesh := by decide

theorem tetMesh_wf : WF tetMesh := by decide

/-- C3 counterexample: in `quadMesh`, vertex 0 lies on exactly one face
(fewer than two incident faces), yet the medial remesh emits a triangle
(after the single medial polygon) whose apex is vertex 0's original
position — refuting "emits no triangle for an original vertex with fewer
than 2 incident faces". -/
theorem remesh_medial_single_face_vertex_gets_triangle :
    (quadMesh.faces.countP
        (fun fs => decide (0 ∈ fs.map (fun l => (quadMesh.loopAt l).vertIdx)))) = 1 ∧
    ∃ t ∈ (remesh_medial quadMesh).2.drop quadMesh.faces.length, t.getD 0 99 = 0 := by
  decide

/-! ## C7/C9: the plain-weave ("celtic") twist assignment -/

/-- Model of the host pseudo-random generator (Python's `random` module):
an abstract generator state, the state `seedFn k` reached by `seed(k)`, and
`next`, one `random()` call returning the drawn value (a float in `[0,1)`,
modelled in ℚ) and the successor state. -/
structure PRNG (σ : Type) where
  seedFn : Nat → σ
  next : σ → ℚ × σ

/-- The k-th value drawn from state `s` by successive `random()` calls. -/
def prngDraw {σ : Type} (prng : PRNG σ) (s : σ) : Nat → ℚ
  | 0 => (prng.next s).1
  | n + 1 => prngDraw prng (prng.next s).2 n

/-- The per-edge loop of `get_celtic_twists`, threading the generator state:
an edge with `len(edge.link_loops) == 0` gets `IGNORE` and consumes no draw;
any other edge consumes one `random()` draw `r` and gets `TWIST_CW` when
`r < twist_prob`, else `STRAIGHT`. -/
def celticGo {σ : Type} (prng : PRNG σ) (p : ℚ) : List BEdge → σ → List Twist
  | [], _ => []
  | e :: es, s =>
    if e.link_loops.isEmpty then IGNORE :: celticGo prng p es s
    else
      (if (prng.next s).1 < p then TWIST_CW else STRAIGHT)
        :: celticGo prng p es (prng.next s).2

/-- `get_celtic_twists(bm, twist_prob)`: calls `seed(0)` first — discarding
whatever state `g` the global generator had — then draws per edge. -/
def get_celtic_twists {σ : Type} (prng : PRNG σ) (g : σ) (m : BMesh) (p : ℚ) :
    List Twist :=
  celticGo prng p m.edges (prng.seedFn 0)

theorem celticGo_length {σ : Type} (prng : PRNG σ) (p : ℚ) (es : List BEdge) (s : σ) :
    (celticGo prng p es s).length = es.length := by
  induction es generalizing s with
  | nil => rfl
  | cons e es' ih =>
    rw [celticGo]
    by_cases h : e.link_loops.isEmpty <;> simp [h, ih]

theorem celticGo_spec {σ : Type} (prng : PRNG σ) (p : ℚ) (es : List BEdge) (s : σ)
    (e : Nat) (he : e < es.length) :
    ((celticGo prng p es s).getD e STRAIGHT = IGNORE
        ↔ (es.getD e default).link_loops = []) ∧
    ((es.getD e default).link_loops ≠ [] →
      (celticGo prng p es s).getD e STRAIGHT
        = (if prngDraw prng s ((es.take e).countP (fun ed => !ed.link_loops.isEmpty)) < p
           then TWIST_CW else STRAIGHT)) := by
  induction es generalizing s e with
  | nil => simp at he
  | cons ed es' ih =>
    rw [celticGo]
    by_cases hb : ed.link_loops.isEmpty
    · rw [if_pos hb]
      cases e with
      | zero =>
        refine ⟨by simpa using List.isEmpty_iff.mp hb, ?_⟩
        intro hne
        exact absurd (List.isEmpty_iff.mp hb) hne
      | succ e' =>
        have he' : e' < es'.length := by simpa using he
        have hcount : ((ed :: es').take (e' + 1)).countP (fun x => !x.link_loops.isEmpty)
            = (es'.take e').countP (fun x => !x.link_loops.isEmpty) := by
          simp [List.take_succ_cons, List.countP_cons, hb]
        rw [List.getD_cons_succ, List.getD_cons_succ, hcount]
        exact ih s e' he'
    · rw [if_neg hb]
      cases e with
      | zero =>
        constructor
        · constructor
          · intro h
            by_cases hlt : (prng.next s).1 < p <;> simp [hlt] at h
          · intro h
            exact absurd h (by simpa using hb)
        · intro _
          simp [prngDraw]
      | succ e' =>
        have he' : e' < es'.length := by simpa using he
        have hcount : ((ed :: es').take (e' + 1)).countP (fun x => !x.link_loops.isEmpty)
            = (es'.take e').countP (fun x => !x.link_loops.isEmpty) + 1 := by
          simp [List.take_succ_cons, List.countP_cons, hb]
        rw [List.getD_cons_succ, List.getD_cons_succ, hcount]
        have hstep : ∀ k, prngDraw prng s (k + 1) = prngDraw prng (prng.next s).2 k :=
          fun k => rfl
        rw [hstep]
        exact ih (prng.next s).2 e' he'

theorem prngDraw_lt_one {σ : Type} (prng : PRNG σ)
    (hrand : ∀ s : σ, 0 ≤ (prng.next s).1 ∧ (prng.next s).1 < 1) :
    ∀ (s : σ) (k : Nat), prngDraw prng s k < 1 := by
  intro s k
  induction k generalizing s with
  | zero => exact (hrand s).2
  | succ n ih => exact ih _

/-- C7: the plain-weave assignment gives `IGNORE` exactly to the edges with an
empty radial loop list; every other edge independently gets `TWIST_CW` when
its `random()` draw is below `twist_prob` and `STRAIGHT` otherwise; with
`twist_prob = 1` (and draws in `[0,1)`, the `random()` contract) every
non-boundary edge gets `TWIST_CW`. -/
theorem get_celtic_twists_spec {σ : Type} (prng : PRNG σ) (g : σ) (m : BMesh) (p : ℚ)
    (hrand : ∀ s : σ, 0 ≤ (prng.next s).1 ∧ (prng.next s).1 < 1) :
    (get_celtic_twists prng g m p).length = m.edges.length ∧
    ∀ e < m.edges.length,
      ((get_celtic_twists prng g m p).getD e STRAIGHT = IGNORE
          ↔ (m.edgeAt e).link_loops = []) ∧
      ((m.edgeAt e).link_loops ≠ [] →
        (get_celtic_twists prng g m p).getD e STRAIGHT
          = (if prngDraw prng (prng.seedFn 0)
                ((m.edges.take e).countP (fun ed => !ed.link_loops.isEmpty)) < p
             then TWIST_CW else STRAIGHT)) ∧
      ((m.edgeAt e).link_loops ≠ [] → p = 1 →
        (get_celtic_twists prng g m p).getD e STRAIGHT = TWIST_CW) := by
  refine ⟨celticGo_length _ _ _ _, ?_⟩
  intro e he
  have hgd : (m.edgeAt e) = m.edges.getD e default := rfl
  obtain ⟨h1, h2⟩ := celticGo_spec prng p m.edges (prng.seedFn 0) e he
  refine ⟨by rwa [hgd], by rw [hgd]; exact h2, ?_⟩
  intro hne hp
  rw [hgd] at hne
  rw [get_celtic_twists] at *
  rw [h2 hne, hp, if_pos (prngDraw_lt_one prng hrand _ _)]

/-- C9: two runs of the plain-weave assignment on the same mesh and
probability give bit-identical twist lists regardless of the prior state of
the global generator, because `get_celtic_twists` begins with `seed(0)`,
resetting the generator to a fixed state. -/
theorem get_celtic_twists_deterministic {σ : Type} (prng : PRNG σ) (g1 g2 : σ)
    (m : BMesh) (p : ℚ) :
    get_celtic_twists prng g1 m p = get_celtic_twists prng g2 m p := rfl

/-! ## DirectedLoop primitives -/

/-- `DirectedLoop(loop, forward)`. -/
structure DLoop where
  loop : Nat
  forward : Bool
deriving DecidableEq, Repr, Inhabited

/-- `DirectedLoop.reversed`. -/
def DLoop.reversed (d : DLoop) : DLoop := ⟨d.loop, !d.forward⟩

/-- One face-cycle step: `link_loop_next` when forward, `link_loop_prev`
when backward. -/
def stepL (m : BMesh) (fwd : Bool) (l : Nat) : Nat :=
  if fwd then (m.loopAt l).nextIdx else (m.loopAt l).prevIdx

/-- Iterated face-cycle steps. -/
def chainL (m : BMesh) (fwd : Bool) : Nat → Nat → Nat
  | 0, l => l
  | k + 1, l => chainL m fwd k (stepL m fwd l)

/-- `DirectedLoop.next_face_loop`, with fuel standing in for the source's
unbounded `while True`: advance within the face cycle (next if forward,
prev if backward) until a non-boundary loop is hit; `none` when the fuel is
exhausted, i.e. when the source loop would not have terminated within that
many steps. -/
def nextFaceLoop (m : BMesh) : Nat → DLoop → Option DLoop
  | 0, _ => none
  | fuel + 1, d =>
    if is_boundary m (stepL m d.forward d.loop)
    then nextFaceLoop m fuel ⟨stepL m d.forward d.loop, d.forward⟩
    else some ⟨stepL m d.forward d.loop, d.forward⟩

/-- `DirectedLoop.next_edge_loop`: cross to `link_loops[0]` when forward and
`link_loops[-1]` when backward; the new forward flag is
`(new_loop.vert.index == v) == forward` where `v` is the old loop's vertex
index.  `none` models the `IndexError` a crossing on an empty radial list
would raise. -/
def nextEdgeLoop (m : BMesh) (d : DLoop) : Option DLoop :=
  if d.forward then
    match (m.loopAt d.loop).radial.head? with
    | none => none
    | some l2 =>
        some ⟨l2, (((m.loopAt l2).vertIdx == (m.loopAt d.loop).vertIdx) == d.forward)⟩
  else
    match (m.loopAt d.loop).radial.getLast? with
    | none => none
    | some l2 =>
        some ⟨l2, (((m.loopAt l2).vertIdx == (m.loopAt d.loop).vertIdx) == d.forward)⟩

/-! ### Face-cycle lemmas -/

theorem exists_face_pos (m : BMesh) (hwf : WF m) (l : Nat) (hl : l < m.loops.length) :
    ∃ i, i < (m.faceAt (m.loopAt l).faceIdx).length ∧
      (m.faceAt (m.loopAt l).faceIdx).getD i 0 = l := by
  have hmem := hwf.2.2.1 l hl
  obtain ⟨n, hn, heq⟩ := List.getElem_of_mem hmem
  exact ⟨n, hn, by rw [List.getD_eq_getElem?_getD, List.getElem?_eq_getElem hn, heq]; rfl⟩

theorem stepL_at_pos (m : BMesh) (hwf : WF m) (f i : Nat)
    (hf : f < m.faces.length) (hi : i < (m.faceAt f).length) :
    stepL m true ((m.faceAt f).getD i 0)
        = (m.faceAt f).getD ((i + 1) % (m.faceAt f).length) 0 ∧
    stepL m false ((m.faceAt f).getD i 0)
        = (m.faceAt f).getD ((i + (m.faceAt f).length - 1) % (m.faceAt f).length) 0 := by
  have h := (hwf.2.1 f hf).2.2 i hi
  constructor
  · simp only [stepL, if_true]
    exact h.2.2.1
  · simp only [stepL, Bool.false_eq_true, if_false]
    exact h.2.2.2

theorem face_pos_lt (m : BMesh) (hwf : WF m) (f i : Nat)
    (hf : f < m.faces.length) (hi : i < (m.faceAt f).length) :
    (m.faceAt f).getD i 0 < m.loops.length ∧
    (m.loopAt ((m.faceAt f).getD i 0)).faceIdx = f :=
  ⟨((hwf.2.1 f hf).2.2 i hi).1, ((hwf.2.1 f hf).2.2 i hi).2.1⟩

/-- Forward chain position formula within a face cycle. -/
theorem chainL_at_pos (m : BMesh) (hwf : WF m) (f : Nat) (hf : f < m.faces.length) :
    ∀ (j i : Nat), i < (m.faceAt f).length →
      chainL m true j ((m.faceAt f).getD i 0)
        = (m.faceAt f).getD ((i + j) % (m.faceAt f).length) 0 := by
  intro j
  induction j with
  | zero =>
    intro i hi
    rw [chainL, Nat.add_zero, Nat.mod_eq_of_lt hi]
  | succ j' ih =>
    intro i hi
    rw [chainL, (stepL_at_pos m hwf f i hf hi).1]
    have hlt : (i + 1) % (m.faceAt f).length < (m.faceAt f).length :=
      Nat.mod_lt _ (by omega)
    rw [ih _ hlt, Nat.mod_add_mod]
    congr 2
    omega

theorem stepL_closure (m : BMesh) (hwf : WF m) (fwd : Bool) (l : Nat)
    (hl : l < m.loops.length) :
    stepL m fwd l < m.loops.length ∧
    (m.loopAt (stepL m fwd l)).faceIdx = (m.loopAt l).faceIdx := by
  have hfl : (m.loopAt l).faceIdx < m.faces.length := (hwf.1 l hl).2.2
  obtain ⟨i, hi, hpos⟩ := exists_face_pos m hwf l hl
  cases fwd with
  | true =>
    have hstep := (stepL_at_pos m hwf _ i hfl hi).1
    rw [hpos] at hstep
    have hlt : (i + 1) % (m.faceAt (m.loopAt l).faceIdx).length
        < (m.faceAt (m.loopAt l).faceIdx).length := Nat.mod_lt _ (by omega)
    have h := face_pos_lt m hwf _ _ hfl hlt
    rw [← hstep] at h
    exact ⟨h.1, h.2⟩
  | false =>
    have hstep := (stepL_at_pos m hwf _ i hfl hi).2
    rw [hpos] at hstep
    have hlt : (i + (m.faceAt (m.loopAt l).faceIdx).length - 1)
          % (m.faceAt (m.loopAt l).faceIdx).length
        < (m.faceAt (m.loopAt l).faceIdx).length := Nat.mod_lt _ (by omega)
    have h := face_pos_lt m hwf _ _ hfl hlt
    rw [← hstep] at h
    exact ⟨h.1, h.2⟩

theorem stepL_inv (m : BMesh) (hwf : WF m) (fwd : Bool) (l : Nat)
    (hl : l < m.loops.length) :
    stepL m (!fwd) (stepL m fwd l) = l := by
  have hfl : (m.loopAt l).faceIdx < m.faces.length := (hwf.1 l hl).2.2
  obtain ⟨i, hi, hpos⟩ := exists_face_pos m hwf l hl
  cases fwd with
  | true =>
    have hstep := (stepL_at_pos m hwf _ i hfl hi).1
    rw [hpos] at hstep
    have hlt : (i + 1) % (m.faceAt (m.loopAt l).faceIdx).length
        < (m.faceAt (m.loopAt l).faceIdx).length := Nat.mod_lt _ (by omega)
    have hstep2 := (stepL_at_pos m hwf _ _ hfl hlt).2
    have hidx : ((i + 1) % (m.faceAt (m.loopAt l).faceIdx).length
          + (m.faceAt (m.loopAt l).faceIdx).length - 1)
        % (m.faceAt (m.loopAt l).faceIdx).length = i := by
      rcases Nat.lt_or_ge (i + 1) (m.faceAt (m.loopAt l).faceIdx).length with hc | hc
      · rw [Nat.mod_eq_of_lt hc]
        have h2 : i + 1 + (m.faceAt (m.loopAt l).faceIdx).length - 1
            = i + (m.faceAt (m.loopAt l).faceIdx).length := by omega
        rw [h2, Nat.add_mod_right, Nat.mod_eq_of_lt hi]
      · have hieq : i + 1 = (m.faceAt (m.loopAt l).faceIdx).length := by omega
        rw [hieq, Nat.mod_self]
        have h2 : 0 + (m.faceAt (m.loopAt l).faceIdx).length - 1 = i := by omega
        rw [h2, Nat.mod_eq_of_lt hi]
    rw [hstep, Bool.not_true, hstep2, hidx]
    exact hpos
  | false =>
    have hstep := (stepL_at_pos m hwf _ i hfl hi).2
    rw [hpos] at hstep
    have hlt : (i + (m.faceAt (m.loopAt l).faceIdx).length - 1)
          % (m.faceAt (m.loopAt l).faceIdx).length
        < (m.faceAt (m.loopAt l).faceIdx).length := Nat.mod_lt _ (by omega)
    have hstep2 := (stepL_at_pos m hwf _ _ hfl hlt).1
    have hidx : ((i + (m.faceAt (m.loopAt l).faceIdx).length - 1)
          % (m.faceAt (m.loopAt l).faceIdx).length + 1)
        % (m.faceAt (m.loopAt l).faceIdx).length = i := by
      rcases Nat.eq_zero_or_pos i with hizero | hipos
      · subst hizero
        have h2 : 0 + (m.faceAt (m.loopAt l).faceIdx).length - 1
            = (m.faceAt (m.loopAt l).faceIdx).length - 1 := by omega
        have hx : (m.faceAt (m.loopAt l).faceIdx).length - 1
            < (m.faceAt (m.loopAt l).faceIdx).length := by omega
        rw [h2, Nat.mod_eq_of_lt hx]
        have h3 : (m.faceAt (m.loopAt l).faceIdx).length - 1 + 1
            = (m.faceAt (m.loopAt l).faceIdx).length := by omega
        rw [h3, Nat.mod_self]
      · have h2 : i + (m.faceAt (m.loopAt l).faceIdx).length - 1
            = (m.faceAt (m.loopAt l).faceIdx).length + (i - 1) := by omega
        have hx : i - 1 < (m.faceAt (m.loopAt l).faceIdx).length := by omega
        rw [h2, Nat.add_mod_left, Nat.mod_eq_of_lt hx]
        have h3 : i - 1 + 1 = i := by omega
        rw [h3, Nat.mod_eq_of_lt hi]
    rw [hstep, Bool.not_false, hstep2, hidx]
    exact hpos

theorem chainL_lt (m : BMesh) (hwf : WF m) (fwd : Bool) :
    ∀ (j l : Nat), l < m.loops.length →
      chainL m fwd j l < m.loops.length ∧
      (m.loopAt (chainL m fwd j l)).faceIdx = (m.loopAt l).faceIdx := by
  intro j
  induction j with
  | zero => exact fun l hl => ⟨hl, rfl⟩
  | succ j' ih =>
    intro l hl
    rw [chainL]
    obtain ⟨h1, h2⟩ := stepL_closure m hwf fwd l hl
    obtain ⟨h3, h4⟩ := ih (stepL m fwd l) h1
    exact ⟨h3, by rw [h4, h2]⟩

theorem chainL_out (m : BMesh) (fwd : Bool) :
    ∀ (j l : Nat), chainL m fwd (j + 1) l = stepL m fwd (chainL m fwd j l) := by
  intro j
  induction j with
  | zero => intro l; rfl
  | succ j' ih =>
    intro l
    rw [chainL, ih (stepL m fwd l)]
    rfl

theorem chainL_inv (m : BMesh) (hwf : WF m) (fwd : Bool) :
    ∀ (i j l : Nat), i ≤ j → l < m.loops.length →
      chainL m (!fwd) i (chainL m fwd j l) = chainL m fwd (j - i) l := by
  intro i
  induction i with
  | zero => intro j l _ _; rfl
  | succ i' ih =>
    intro j l hij hl
    have hj : j - 1 + 1 = j := by omega
    rw [chainL, ← hj, chainL_out, stepL_inv m hwf fwd _ ((chainL_lt m hwf fwd _ l hl).1)]
    rw [ih (j - 1) l (by omega) hl]
    congr 1
    omega

theorem nodup_length_le (l : List Nat) (n : Nat) (hnd : l.Nodup) (hlt : ∀ x ∈ l, x < n) :
    l.length ≤ n := by
  classical
  have h1 : l.toFinset.card = l.length := List.toFinset_card_of_nodup hnd
  have h2 : l.toFinset ⊆ Finset.range n := by
    intro x hx
    simp only [List.mem_toFinset] at hx
    exact Finset.mem_range.mpr (hlt x hx)
  have h3 := Finset.card_le_card h2
  simpa [h1] using h3

theorem face_mem_lt (m : BMesh) (hwf : WF m) (f : Nat) (hf : f < m.faces.length) :
    ∀ x ∈ m.faceAt f, x < m.loops.length := by
  intro x hx
  obtain ⟨n, hn, heq⟩ := List.getElem_of_mem hx
  have hgd : (m.faceAt f).getD n 0 = x := by
    rw [List.getD_eq_getElem?_getD, List.getElem?_eq_getElem hn, heq]
    rfl
  have := ((hwf.2.1 f hf).2.2 n hn).1
  rwa [hgd] at this

theorem face_length_le (m : BMesh) (hwf : WF m) (f : Nat) (hf : f < m.faces.length) :
    (m.faceAt f).length ≤ m.loops.length :=
  nodup_length_le _ _ (hwf.2.1 f hf).2.1 (face_mem_lt m hwf f hf)

theorem chainL_period (m : BMesh) (hwf : WF m) (f : Bool) (l : Nat)
    (hl : l < m.loops.length) :
    chainL m f ((m.faceAt (m.loopAt l).faceIdx).length) l = l := by
  have hfl : (m.loopAt l).faceIdx < m.faces.length := (hwf.1 l hl).2.2
  obtain ⟨i, hi, hpos⟩ := exists_face_pos m hwf l hl
  have hfwd : chainL m true ((m.faceAt (m.loopAt l).faceIdx).length) l = l := by
    have h := chainL_at_pos m hwf _ hfl ((m.faceAt (m.loopAt l).faceIdx).length) i hi
    rw [hpos] at h
    rw [h, Nat.add_mod_right, Nat.mod_eq_of_lt hi, hpos]
  cases f with
  | true => exact hfwd
  | false =>
    have hinv := chainL_inv m hwf true ((m.faceAt (m.loopAt l).faceIdx).length)
      ((m.faceAt (m.loopAt l).faceIdx).length) l (Nat.le_refl _) hl
    rw [hfwd, Nat.sub_self] at hinv
    simpa using hinv

theorem mod_reach (i t k : Nat) (hi : i < k) (ht : t < k) :
    ∃ j, 1 ≤ j ∧ j ≤ k ∧ (i + j) % k = t := by
  rcases Nat.lt_or_ge i t with h | h
  · refine ⟨t - i, by omega, by omega, ?_⟩
    have h1 : i + (t - i) = t := by omega
    rw [h1, Nat.mod_eq_of_lt ht]
  · refine ⟨k - i + t, by omega, by omega, ?_⟩
    have h1 : i + (k - i + t) = k + t := by omega
    rw [h1, Nat.add_mod_left, Nat.mod_eq_of_lt ht]

/-- Any face member is reachable from any other by 1..k face-cycle steps, in
either direction. -/
theorem chainL_reach (m : BMesh) (hwf : WF m) (fwd : Bool) (l x : Nat)
    (hl : l < m.loops.length) (hx : x ∈ m.faceAt (m.loopAt l).faceIdx) :
    ∃ j, 1 ≤ j ∧ j ≤ (m.faceAt (m.loopAt l).faceIdx).length ∧ chainL m fwd j l = x := by
  have hfl : (m.loopAt l).faceIdx < m.faces.length := (hwf.1 l hl).2.2
  obtain ⟨i, hi, hpos⟩ := exists_face_pos m hwf l hl
  obtain ⟨t, htlt, hteq⟩ := List.getElem_of_mem hx
  have htgd : (m.faceAt (m.loopAt l).faceIdx).getD t 0 = x := by
    rw [List.getD_eq_getElem?_getD, List.getElem?_eq_getElem htlt, hteq]
    rfl
  cases fwd with
  | true =>
    obtain ⟨j, hj1, hj2, hj3⟩ := mod_reach i t _ hi htlt
    refine ⟨j, hj1, hj2, ?_⟩
    have h := chainL_at_pos m hwf _ hfl j i hi
    rw [hpos] at h
    rw [h, hj3, htgd]
  | false =>
    have hxlt : x < m.loops.length := face_mem_lt m hwf _ hfl x hx
    have hxface : (m.loopAt x).faceIdx = (m.loopAt l).faceIdx := by
      have := face_pos_lt m hwf _ t hfl htlt
      rw [htgd] at this
      exact this.2
    obtain ⟨i2, hi2, hpos2⟩ := exists_face_pos m hwf x hxlt
    rw [hxface] at hi2 hpos2
    obtain ⟨t2, ht2lt, ht2eq⟩ := List.getElem_of_mem (hwf.2.2.1 l hl)
    have ht2gd : (m.faceAt (m.loopAt l).faceIdx).getD t2 0 = l := by
      rw [List.getD_eq_getElem?_getD, List.getElem?_eq_getElem ht2lt, ht2eq]
      rfl
    obtain ⟨j, hj1, hj2, hj3⟩ := mod_reach i2 t2 _ hi2 ht2lt
    have h := chainL_at_pos m hwf _ hfl j i2 hi2
    rw [hpos2] at h
    rw [hj3, ht2gd] at h
    refine ⟨j, hj1, hj2, ?_⟩
    have hinv := chainL_inv m hwf true j j x (Nat.le_refl _) hxlt
    rw [h, Nat.sub_self] at hinv
    simpa using hinv

theorem nextFaceLoop_sound (m : BMesh) :
    ∀ (fuel : Nat) (d d' : DLoop), nextFaceLoop m fuel d = some d' →
      d'.forward = d.forward ∧
      ∃ j, 1 ≤ j ∧ j ≤ fuel ∧ d'.loop = chainL m d.forward j d.loop ∧
        is_boundary m d'.loop = false ∧
        (∀ i, 1 ≤ i → i < j → is_boundary m (chainL m d.forward i d.loop) = true) := by
  intro fuel
  induction fuel with
  | zero => intro d d' h; simp [nextFaceLoop] at h
  | succ fuel' ih =>
    intro d d' h
    rw [nextFaceLoop] at h
    by_cases hb : is_boundary m (stepL m d.forward d.loop)
    · rw [if_pos hb] at h
      obtain ⟨hf, j, hj1, hj2, hj3, hj4, hj5⟩ := ih _ d' h
      refine ⟨hf, j + 1, by omega, by omega, ?_, hj4, ?_⟩
      · rw [hj3]; rfl
      · intro i hi1 hi2
        cases i with
        | zero => omega
        | succ i' =>
          rcases Nat.eq_zero_or_pos i' with rfl | hi'pos
          · exact hb
          · have : chainL m d.forward (i' + 1) d.loop
                = chainL m d.forward i' (stepL m d.forward d.loop) := rfl
            rw [this]
            exact hj5 i' hi'pos (by omega)
    · rw [if_neg hb] at h
      cases h
      refine ⟨rfl, 1, Nat.le_refl _, by omega, rfl, by simpa using hb, ?_⟩
      intro i hi1 hi2
      omega

theorem nextFaceLoop_complete (m : BMesh) :
    ∀ (fuel : Nat) (l : Nat) (f : Bool) (j : Nat),
      1 ≤ j → j ≤ fuel → is_boundary m (chainL m f j l) = false →
      (∀ i, 1 ≤ i → i < j → is_boundary m (chainL m f i l) = true) →
      nextFaceLoop m fuel ⟨l, f⟩ = some ⟨chainL m f j l, f⟩ := by
  intro fuel
  induction fuel with
  | zero => intro l f j hj1 hj2 _ _; omega
  | succ fuel' ih =>
    intro l f j hj1 hj2 hj3 hj4
    rw [nextFaceLoop]
    by_cases hb : is_boundary m (stepL m f l)
    · rw [if_pos hb]
      have hj2' : 2 ≤ j := by
        by_contra hc
        have hj : j = 1 := by omega
        rw [hj] at hj3
        have : chainL m f 1 l = stepL m f l := rfl
        rw [this] at hj3
        rw [hj3] at hb
        exact Bool.noConfusion hb
      have hstep : ∀ j', chainL m f (j' + 1) l = chainL m f j' (stepL m f l) :=
        fun j' => rfl
      have hjeq : j - 1 + 1 = j := by omega
      have h1 : is_boundary m (chainL m f (j - 1) (stepL m f l)) = false := by
        rw [← hstep, hjeq]; exact hj3
      have h2 : ∀ i, 1 ≤ i → i < j - 1 →
          is_boundary m (chainL m f i (stepL m f l)) = true := by
        intro i hi1 hi2
        rw [← hstep]
        exact hj4 (i + 1) (by omega) (by omega)
      have := ih (stepL m f l) f (j - 1) (by omega) (by omega) h1 h2
      rw [this]
      congr 2
      rw [← hstep, hjeq]
    · rw [if_neg hb]
      have hj : j = 1 := by
        by_contra hc
        have h := hj4 1 (Nat.le_refl _) (by omega)
        have h1 : chainL m f 1 l = stepL m f l := rfl
        rw [h1] at h
        rw [h] at hb
        exact hb rfl
      rw [hj]
      rfl

theorem nextFaceLoop_some_of_exists (m : BMesh) (hwf : WF m) (l : Nat) (f : Bool)
    (hl : l < m.loops.length)
    (hex : ∃ j, 1 ≤ j ∧ j ≤ m.loops.length ∧ is_boundary m (chainL m f j l) = false) :
    ∃ d', nextFaceLoop m m.loops.length ⟨l, f⟩ = some d' ∧ d'.forward = f ∧
      is_boundary m d'.loop = false ∧ d'.loop < m.loops.length ∧
      (m.loopAt d'.loop).faceIdx = (m.loopAt l).faceIdx := by
  classical
  have hexP : ∃ j, (1 ≤ j ∧ is_boundary m (chainL m f j l) = false) := by
    obtain ⟨j, h1, _, h3⟩ := hex
    exact ⟨j, h1, h3⟩
  let j0 := Nat.find hexP
  obtain ⟨hj01, hj02⟩ := Nat.find_spec hexP
  obtain ⟨j, hj1, hj2, hj3⟩ := hex
  have hj0le : j0 ≤ j := Nat.find_le ⟨hj1, hj3⟩
  have hmin : ∀ i, 1 ≤ i → i < j0 → is_boundary m (chainL m f i l) = true := by
    intro i hi1 hi2
    have := Nat.find_min hexP hi2
    simp only [not_and] at this
    have h2 := this hi1
    simpa using h2
  have hcmp := nextFaceLoop_complete m m.loops.length l f j0 hj01 (by omega) hj02 hmin
  refine ⟨⟨chainL m f j0 l, f⟩, hcmp, rfl, hj02, (chainL_lt m hwf f j0 l hl).1,
    (chainL_lt m hwf f j0 l hl).2⟩

theorem nextFaceLoop_invol (m : BMesh) (hwf : WF m) (l : Nat) (f : Bool)
    (hl : l < m.loops.length) (hnb : is_boundary m l = false) (d' : DLoop)
    (h : nextFaceLoop m m.loops.length ⟨l, f⟩ = some d') :
    nextFaceLoop m m.loops.length ⟨d'.loop, !f⟩ = some ⟨l, !f⟩ := by
  obtain ⟨hf, j, hj1, hj2, hj3, hj4, hj5⟩ := nextFaceLoop_sound m m.loops.length _ d' h
  have hback : chainL m (!f) j d'.loop = l := by
    rw [hj3]
    have hinv := chainL_inv m hwf f j j l (Nat.le_refl _) hl
    rw [Nat.sub_self] at hinv
    exact hinv
  have hmid : ∀ i, 1 ≤ i → i < j → is_boundary m (chainL m (!f) i d'.loop) = true := by
    intro i hi1 hi2
    have hinv := chainL_inv m hwf f i j l (by omega) hl
    rw [← hj3] at hinv
    rw [hinv]
    exact hj5 (j - i) (by omega) (by omega)
  have hend : is_boundary m (chainL m (!f) j d'.loop) = false := by
    rw [hback]; exact hnb
  have := nextFaceLoop_complete m m.loops.length d'.loop (!f) j hj1 hj2 hend hmid
  rw [this, hback]

theorem self_mem_link_loops (m : BMesh) (hwf : WF m) (l : Nat) (hl : l < m.loops.length) :
    l ∈ (m.edgeAt (m.loopAt l).edgeIdx).link_loops :=
  (hwf.2.2.2.2.2 (m.loopAt l).edgeIdx (hwf.1 l hl).2.1).2 l hl rfl

/-- C8: from any directed loop whose face holds at least one non-boundary
loop, `next_face_loop` terminates (within `loops.length` steps) and lands on
a non-boundary loop — one whose own radial list `link_loops` is non-empty,
so its edge's loop list is non-empty as well — with the forward flag
unchanged; and when the whole face is boundary loops the walk never
terminates: it returns `none` for every fuel bound. -/
theorem next_face_loop_spec (m : BMesh) (hwf : WF m) (l : Nat) (f : Bool)
    (hl : l < m.loops.length) :
    ((∃ x ∈ m.faceAt (m.loopAt l).faceIdx, is_boundary m x = false) →
      ∃ d', nextFaceLoop m m.loops.length ⟨l, f⟩ = some d' ∧
        d'.forward = f ∧ is_boundary m d'.loop = false ∧
        (m.loopAt d'.loop).radial ≠ [] ∧
        (m.edgeAt (m.loopAt d'.loop).edgeIdx).link_loops ≠ []) ∧
    ((∀ x ∈ m.faceAt (m.loopAt l).faceIdx, is_boundary m x = true) →
      ∀ fuel, nextFaceLoop m fuel ⟨l, f⟩ = none) := by
  constructor
  · rintro ⟨x, hxmem, hxnb⟩
    obtain ⟨j, hj1, hj2, hj3⟩ := chainL_reach m hwf f l x hl hxmem
    have hfl : (m.loopAt l).faceIdx < m.faces.length := (hwf.1 l hl).2.2
    have hex : ∃ j, 1 ≤ j ∧ j ≤ m.loops.length ∧
        is_boundary m (chainL m f j l) = false :=
      ⟨j, hj1, le_trans hj2 (face_length_le m hwf _ hfl), by rw [hj3]; exact hxnb⟩
    obtain ⟨d', hd1, hd2, hd3, hd4, _⟩ := nextFaceLoop_some_of_exists m hwf l f hl hex
    refine ⟨d', hd1, hd2, hd3, ?_, ?_⟩
    · intro hc
      rw [is_boundary, hc] at hd3
      simp at hd3
    · intro hc
      have := self_mem_link_loops m hwf d'.loop hd4
      rw [hc] at this
      simp at this
  · intro hall fuel
    induction fuel generalizing l with
    | zero => rfl
    | succ fuel' ih =>
      rw [nextFaceLoop]
      have hmem : stepL m f l ∈ m.faceAt (m.loopAt l).faceIdx := by
        obtain ⟨h1, h2⟩ := stepL_closure m hwf f l hl
        have := hwf.2.2.1 _ h1
        rwa [h2] at this
      have hb : is_boundary m (stepL m f l) = true := hall _ hmem
      rw [if_pos hb]
      have hlt : stepL m f l < m.loops.length := (stepL_closure m hwf f l hl).1
      have hface : (m.loopAt (stepL m f l)).faceIdx = (m.loopAt l).faceIdx :=
        (stepL_closure m hwf f l hl).2
      exact ih (stepL m f l) hlt (by rwa [hface])

/-! ## C1: the strand tracer `visit_strands` -/

/-- The three builder callbacks of the tracer protocol, recorded as events. -/
inductive Event where
  | startStrand : Event
  | addLoop (prev_loop : Nat) (loop : Nat) (twist : Twist) (forward : Bool) : Event
  | endStrand : Event
deriving DecidableEq, Repr

def Event.isAdd : Event → Bool
  | .addLoop _ _ _ _ => true
  | _ => false

/-- The tracer's mutable state: `loops_entered` and `loops_exited` (as the
lists of marked loop indices — every insertion in the source happens on a
key that was checked unmarked) plus the sequence of builder calls made. -/
structure VState where
  entered : List Nat
  exited : List Nat
  events : List Event
deriving DecidableEq, Repr

def initVState : VState := ⟨[], [], []⟩

/-- The body of `make_loop`'s `while True`, fueled.  `none` models a fault:
the re-entry assertion failing, a nonterminating `next_face_loop`, an
out-of-range twist lookup, a radial crossing on an empty radial list, or
fuel exhaustion.  Forward branch: break if the current loop was already
exited, else mark it exited, advance with `next_face_loop`, assert-and-mark
the landed loop entered, read the twist at the landed loop's edge, cross
radially on a crossing twist, emit `add_loop(prev, cur, twist, forward)` and
continue; the backward branch swaps the roles of entered and exited. -/
def makeLoopAux (m : BMesh) (twists : List Twist) : Nat → DLoop → VState → Option VState
  | 0, _, _ => none
  | fuel + 1, d, st =>
    if d.forward then
      if d.loop ∈ st.exited then some st
      else
        match nextFaceLoop m m.loops.length d with
        | none => none
        | some d1 =>
          if d1.loop ∈ st.entered then none
          else
            match twists[(m.loopAt d1.loop).edgeIdx]? with
            | none => none
            | some tw =>
              match (if tw = TWIST_CCW ∨ tw = TWIST_CW
                     then nextEdgeLoop m d1 else some d1) with
              | none => none
              | some d2 =>
                makeLoopAux m twists fuel d2
                  { entered := d1.loop :: st.entered
                    exited := d.loop :: st.exited
                    events := st.events ++ [.addLoop d1.loop d2.loop tw d2.forward] }
    else
      if d.loop ∈ st.entered then some st
      else
        match nextFaceLoop m m.loops.length d with
        | none => none
        | some d1 =>
          if d1.loop ∈ st.exited then none
          else
            match twists[(m.loopAt d1.loop).edgeIdx]? with
            | none => none
            | some tw =>
              match (if tw = TWIST_CCW ∨ tw = TWIST_CW
                     then nextEdgeLoop m d1 else some d1) with
              | none => none
              | some d2 =>
                makeLoopAux m twists fuel d2
                  { entered := d.loop :: st.entered
                    exited := d1.loop :: st.exited
                    events := st.events ++ [.addLoop d1.loop d2.loop tw d2.forward] }

/-- `make_loop(d)`: `start_strand`, the traversal loop, `end_strand`. -/
def makeLoop (m : BMesh) (twists : List Twist) (fuel : Nat) (d : DLoop) (st : VState) :
    Option VState :=
  match makeLoopAux m twists fuel d { st with events := st.events ++ [.startStrand] } with
  | none => none
  | some st' => some { st' with events := st'.events ++ [.endStrand] }

/-- One step of the driver loop: skip boundary loops, start a forward strand
at any not-yet-exited loop, then a backward strand at any not-yet-entered
loop. -/
def visitLoopStart (m : BMesh) (twists : List Twist) (fuel : Nat) (st : VState)
    (l : Nat) : Option VState :=
  if is_boundary m l then some st
  else
    match (if l ∈ st.exited then some st else makeLoop m twists fuel ⟨l, true⟩ st) with
    | none => none
    | some st1 =>
      if l ∈ st1.entered then some st1 else makeLoop m twists fuel ⟨l, false⟩ st1

/-- `visit_strands(bm, twists, builder)`: attempt to start a strand at each
loop of each face.  The fuel bound `2 * loops + 1` dominates the number of
iterations any single `make_loop` can perform (each iteration marks two
fresh marks out of at most `2 * loops`). -/
def visit_strands (m : BMesh) (twists : List Twist) : Option VState :=
  m.faces.flatten.foldlM (visitLoopStart m twists (2 * m.loops.length + 1)) initVState

/-- A directed loop is a valid traversal token when its loop index is in
range and not a boundary loop. -/
def okTok (m : BMesh) (t : Nat × Bool) : Prop :=
  t.1 < m.loops.length ∧ is_boundary m t.1 = false

/-- The pairing of traversal tokens: the token consumed by the re-entry
assertion of the iteration whose head token is `t` (the `next_face_loop`
target with the direction reversed).  Totalised arbitrarily off the domain. -/
def psiTok (m : BMesh) (t : Nat × Bool) : Nat × Bool :=
  match nextFaceLoop m m.loops.length ⟨t.1, t.2⟩ with
  | some d => (d.loop, !t.2)
  | none => (t.1, !t.2)

/-- Whether token `t` has been consumed: forward tokens are recorded in
`loops_exited`, backward tokens in `loops_entered`. -/
def tokMarked (st : VState) (t : Nat × Bool) : Prop :=
  t.1 ∈ (if t.2 then st.exited else st.entered)

instance (st : VState) (t : Nat × Bool) : Decidable (tokMarked st t) := by
  unfold tokMarked
  infer_instance

/-- All traversal tokens of a mesh. -/
def tokSet (m : BMesh) : Finset (Nat × Bool) :=
  (Finset.range m.loops.length ×ˢ (Finset.univ : Finset Bool)).filter
    (fun t => is_boundary m t.1 = false)

theorem mem_tokSet (m : BMesh) (t : Nat × Bool) : t ∈ tokSet m ↔ okTok m t := by
  simp [tokSet, okTok, Finset.mem_filter, Finset.mem_product, and_comm]

/-- Tokens not yet consumed. -/
def unmarkedCount (m : BMesh) (st : VState) : Nat :=
  ((tokSet m).filter (fun t => ¬ tokMarked st t)).card

theorem nextFaceLoop_total (m : BMesh) (hwf : WF m) (l : Nat) (f : Bool)
    (ht : okTok m (l, f)) :
    ∃ d1, nextFaceLoop m m.loops.length ⟨l, f⟩ = some d1 ∧ d1.forward = f ∧
      is_boundary m d1.loop = false ∧ d1.loop < m.loops.length := by
  obtain ⟨hl, hnb⟩ := ht
  have hfl : (m.loopAt l).faceIdx < m.faces.length := (hwf.1 l hl).2.2
  have hk1 : 1 ≤ (m.faceAt (m.loopAt l).faceIdx).length := by
    have hne := (hwf.2.1 _ hfl).1
    cases hcase : (m.faceAt (m.loopAt l).faceIdx) with
    | nil => exact absurd hcase hne
    | cons a as => simp [hcase]
  have hex : ∃ j, 1 ≤ j ∧ j ≤ m.loops.length ∧
      is_boundary m (chainL m f j l) = false := by
    refine ⟨(m.faceAt (m.loopAt l).faceIdx).length, hk1,
      face_length_le m hwf _ hfl, ?_⟩
    rw [chainL_period m hwf f l hl]
    exact hnb
  obtain ⟨d1, h1, h2, h3, h4, _⟩ := nextFaceLoop_some_of_exists m hwf l f hl hex
  exact ⟨d1, h1, h2, h3, h4⟩

theorem psiTok_spec (m : BMesh) (hwf : WF m) (t : Nat × Bool) (ht : okTok m t) :
    okTok m (psiTok m t) ∧ psiTok m (psiTok m t) = t ∧ (psiTok m t).2 = !t.2 := by
  obtain ⟨d1, h1, h2, h3, h4⟩ := nextFaceLoop_total m hwf t.1 t.2 (by
    cases t
    exact ht)
  have hpsi : psiTok m t = (d1.loop, !t.2) := by
    rw [psiTok]
    cases t
    rw [h1]
  have hinv := nextFaceLoop_invol m hwf t.1 t.2 ht.1 ht.2 d1 (by
    cases t
    exact h1)
  have hpsi2 : psiTok m (d1.loop, !t.2) = (t.1, !(!t.2)) := by
    rw [psiTok, hinv]
  refine ⟨?_, ?_, ?_⟩
  · rw [hpsi]
    exact ⟨h4, h3⟩
  · rw [hpsi, hpsi2]
    cases t
    simp
  · rw [hpsi]

theorem psiTok_inj_on (m : BMesh) (hwf : WF m) (t t' : Nat × Bool)
    (ht : okTok m t) (ht' : okTok m t') (h : psiTok m t = psiTok m t') : t = t' := by
  have h1 := (psiTok_spec m hwf t ht).2.1
  have h2 := (psiTok_spec m hwf t' ht').2.1
  rw [← h1, ← h2, h]

theorem nextEdgeLoop_ok (m : BMesh) (hwf : WF m) (d1 : DLoop)
    (h1 : d1.loop < m.loops.length) (hnb : is_boundary m d1.loop = false) :
    ∃ d2, nextEdgeLoop m d1 = some d2 ∧ d2.loop < m.loops.length ∧
      is_boundary m d2.loop = false := by
  have hne : (m.loopAt d1.loop).radial ≠ [] := by
    intro hc
    rw [is_boundary, hc] at hnb
    simp at hnb
  rw [nextEdgeLoop]
  cases hf : d1.forward with
  | true =>
    simp only [if_true]
    cases hh : (m.loopAt d1.loop).radial.head? with
    | none => exact absurd (List.head?_eq_none_iff.mp hh) hne
    | some l2 =>
      have hmem : l2 ∈ (m.loopAt d1.loop).radial := List.mem_of_mem_head? hh
      obtain ⟨ha, _, _, hd⟩ := hwf.2.2.2.1 d1.loop h1 l2 hmem
      refine ⟨_, rfl, ha, ?_⟩
      cases hr : (m.loopAt l2).radial with
      | nil => rw [hr] at hd; simp at hd
      | cons a as => rw [is_boundary, hr]; rfl
  | false =>
    simp only [Bool.false_eq_true, if_false]
    cases hh : (m.loopAt d1.loop).radial.getLast? with
    | none => exact absurd (List.getLast?_eq_none_iff.mp hh) hne
    | some l2 =>
      have hmem : l2 ∈ (m.loopAt d1.loop).radial := List.mem_of_mem_getLast? hh
      obtain ⟨ha, _, _, hd⟩ := hwf.2.2.2.1 d1.loop h1 l2 hmem
      refine ⟨_, rfl, ha, ?_⟩
      cases hr : (m.loopAt l2).radial with
      | nil => rw [hr] at hd; simp at hd
      | cons a as => rw [is_boundary, hr]; rfl

/-- Well-formedness of an `add_loop` event: the previous loop (the
`next_face_loop` landing point whose edge supplied the twist) is a valid
non-boundary loop and the recorded twist is the twist list's entry at its
edge. -/
def addOK (m : BMesh) (tw : List Twist) : Event → Prop
  | .addLoop p _ t _ =>
      p < m.loops.length ∧ is_boundary m p = false ∧
      tw[(m.loopAt p).edgeIdx]? = some t
  | _ => True

/-- The tracer invariant: marks are valid tokens, each recorded at most
once, the marked set is closed under the pairing `psiTok`, each `add_loop`
event accounts for exactly two marks, and all events are well-formed. -/
structure GoodS (m : BMesh) (tw : List Twist) (st : VState) : Prop where
  exited_ok : ∀ l ∈ st.exited, l < m.loops.length ∧ is_boundary m l = false
  entered_ok : ∀ l ∈ st.entered, l < m.loops.length ∧ is_boundary m l = false
  exited_nd : st.exited.Nodup
  entered_nd : st.entered.Nodup
  closed : ∀ t, okTok m t → (tokMarked st t ↔ tokMarked st (psiTok m t))
  count : 2 * st.events.countP Event.isAdd = st.exited.length + st.entered.length
  events_ok : ∀ ev ∈ st.events, addOK m tw ev

theorem goodS_init (m : BMesh) (tw : List Twist) : GoodS m tw initVState := by
  refine ⟨?_, ?_, ?_, ?_, ?_, ?_, ?_⟩ <;> simp [initVState, tokMarked]

theorem unmarked_insert (m : BMesh) (st st2 : VState) (t0 t1 : Nat × Bool)
    (hne : t0 ≠ t1) (h0 : okTok m t0) (h1 : okTok m t1)
    (hm0 : ¬ tokMarked st t0) (hm1 : ¬ tokMarked st t1)
    (hst2 : ∀ t, tokMarked st2 t ↔ (tokMarked st t ∨ t = t0 ∨ t = t1)) :
    unmarkedCount m st2 + 2 = unmarkedCount m st := by
  classical
  have hset : (tokSet m).filter (fun t => ¬ tokMarked st2 t)
      = ((tokSet m).filter (fun t => ¬ tokMarked st t)) \ {t0, t1} := by
    ext t
    simp only [Finset.mem_filter, Finset.mem_sdiff, Finset.mem_insert,
      Finset.mem_singleton, hst2]
    tauto
  have hsub : ({t0, t1} : Finset (Nat × Bool))
      ⊆ (tokSet m).filter (fun t => ¬ tokMarked st t) := by
    intro x hx
    rcases Finset.mem_insert.mp hx with rfl | hx
    · exact Finset.mem_filter.mpr ⟨(mem_tokSet m x).mpr h0, hm0⟩
    · rw [Finset.mem_singleton] at hx
      subst hx
      exact Finset.mem_filter.mpr ⟨(mem_tokSet m x).mpr h1, hm1⟩
  have hcard2 : ({t0, t1} : Finset (Nat × Bool)).card = 2 := Finset.card_pair hne
  have hle := Finset.card_le_card hsub
  rw [unmarkedCount, unmarkedCount, hset, Finset.card_sdiff hsub, hcard2]
  omega

theorem closed_insert_pair (m : BMesh) (hwf : WF m) (st st2 : VState)
    (t0 : Nat × Bool) (h0 : okTok m t0)
    (hcl : ∀ t, okTok m t → (tokMarked st t ↔ tokMarked st (psiTok m t)))
    (hst2 : ∀ t, tokMarked st2 t ↔ (tokMarked st t ∨ t = t0 ∨ t = psiTok m t0)) :
    ∀ t, okTok m t → (tokMarked st2 t ↔ tokMarked st2 (psiTok m t)) := by
  intro t ht
  have hp0 := psiTok_spec m hwf t0 h0
  rw [hst2, hst2]
  constructor
  · rintro (h | rfl | heq)
    · exact Or.inl ((hcl t ht).mp h)
    · exact Or.inr (Or.inr rfl)
    · rw [heq, hp0.2.1]
      exact Or.inr (Or.inl rfl)
  · rintro (h | heq | heq)
    · exact Or.inl ((hcl t ht).mpr h)
    · have := (psiTok_spec m hwf t ht).2.1
      rw [heq] at this
      exact Or.inr (Or.inr this.symm)
    · exact Or.inr (Or.inl (psiTok_inj_on m hwf t t0 ht h0 heq))

theorem makeLoopAux_spec (m : BMesh) (tw : List Twist) (hwf : WF m)
    (hlen : tw.length = m.edges.length) :
    ∀ (fuel : Nat) (d : DLoop) (st : VState),
      GoodS m tw st → okTok m (d.loop, d.forward) →
      unmarkedCount m st < fuel →
      ∃ st', makeLoopAux m tw fuel d st = some st' ∧ GoodS m tw st' ∧
        (∀ l ∈ st.exited, l ∈ st'.exited) ∧
        (∀ l ∈ st.entered, l ∈ st'.entered) ∧
        tokMarked st' (d.loop, d.forward) ∧
        (∃ evs, st'.events = st.events ++ evs) := by
  intro fuel
  induction fuel with
  | zero => intro d st _ _ hfuel; omega
  | succ fuel' ih =>
    rintro ⟨l, f⟩ st hgood hok hfuel
    cases f with
    | true =>
      rw [makeLoopAux]
      simp only [if_true]
      by_cases hmark : l ∈ st.exited
      · rw [if_pos hmark]
        exact ⟨st, rfl, hgood, fun x h => h, fun x h => h, hmark, [], by simp⟩
      · rw [if_neg hmark]
        obtain ⟨d1, h1, h2, h3, h4⟩ := nextFaceLoop_total m hwf l true hok
        simp only [h1]
        have hpsi0 : psiTok m (l, true) = (d1.loop, false) := by
          simp [psiTok, h1]
        have hm1 : ¬ tokMarked st (d1.loop, false) := by
          intro hc
          have := (hgood.closed (l, true) hok).mpr (by rwa [hpsi0])
          exact hmark this
        have hassert : ¬ d1.loop ∈ st.entered := hm1
        rw [if_neg hassert]
        have hidx : (m.loopAt d1.loop).edgeIdx < tw.length := by
          rw [hlen]
          exact (hwf.1 d1.loop h4).2.1
        simp only [List.getElem?_eq_getElem hidx]
        set tw0 := tw[(m.loopAt d1.loop).edgeIdx] with htw0
        have hd2 : ∃ d2, (if tw0 = TWIST_CCW ∨ tw0 = TWIST_CW
              then nextEdgeLoop m d1 else some d1) = some d2 ∧
            d2.loop < m.loops.length ∧ is_boundary m d2.loop = false := by
          by_cases hcr : tw0 = TWIST_CCW ∨ tw0 = TWIST_CW
          · rw [if_pos hcr]
            obtain ⟨d2, ha, hb, hc⟩ := nextEdgeLoop_ok m hwf d1 h4 h3
            exact ⟨d2, ha, hb, hc⟩
          · rw [if_neg hcr]
            exact ⟨d1, rfl, h4, h3⟩
        obtain ⟨d2, hd2eq, hd2lt, hd2nb⟩ := hd2
        simp only [hd2eq]
        set st2 : VState :=
          { entered := d1.loop :: st.entered
            exited := l :: st.exited
            events := st.events ++ [.addLoop d1.loop d2.loop tw0 d2.forward] } with hst2
        have hchar : ∀ t, tokMarked st2 t ↔
            (tokMarked st t ∨ t = (l, true) ∨ t = (d1.loop, false)) := by
          rintro ⟨x, b⟩
          cases b <;> simp [tokMarked, hst2, List.mem_cons, or_comm, Prod.ext_iff]
        have hgood2 : GoodS m tw st2 := by
          refine ⟨?_, ?_, ?_, ?_, ?_, ?_, ?_⟩
          · intro x hx
            rcases List.mem_cons.mp hx with rfl | hx
            · exact ⟨hok.1, hok.2⟩
            · exact hgood.exited_ok x hx
          · intro x hx
            rcases List.mem_cons.mp hx with rfl | hx
            · exact ⟨h4, h3⟩
            · exact hgood.entered_ok x hx
          · exact List.Nodup.cons hmark hgood.exited_nd
          · exact List.Nodup.cons hassert hgood.entered_nd
          · exact closed_insert_pair m hwf st st2 (l, true) hok hgood.closed
              (by rw [hpsi0]; exact hchar)
          · have hc := hgood.count
            simp only [hst2, List.countP_append, List.length_cons]
            simp [Event.isAdd]
            omega
          · intro ev hev
            rcases List.mem_append.mp hev with hev | hev
            · exact hgood.events_ok ev hev
            · rcases List.mem_singleton.mp hev with rfl
              exact ⟨h4, h3, by rw [List.getElem?_eq_getElem hidx]⟩
        have hunm : unmarkedCount m st2 + 2 = unmarkedCount m st := by
          refine unmarked_insert m st st2 (l, true) (d1.loop, false)
            (by simp) hok ⟨h4, h3⟩ hmark hm1 hchar
        obtain ⟨st', hs1, hs2, hs3, hs4, hs5, evs, hs6⟩ :=
          ih d2 st2 hgood2 ⟨hd2lt, hd2nb⟩ (by omega)
        refine ⟨st', hs1, hs2, ?_, ?_, ?_, ?_⟩
        · intro x hx
          exact hs3 x (by simp [hst2, List.mem_cons, hx])
        · intro x hx
          exact hs4 x (by simp [hst2, List.mem_cons, hx])
        · exact hs3 l (by simp [hst2])
        · exact ⟨.addLoop d1.loop d2.loop tw0 d2.forward :: evs,
            by rw [hs6]; simp [hst2]⟩
    | false =>
      rw [makeLoopAux]
      simp only [Bool.false_eq_true, if_false]
      by_cases hmark : l ∈ st.entered
      · rw [if_pos hmark]
        exact ⟨st, rfl, hgood, fun x h => h, fun x h => h, hmark, [], by simp⟩
      · rw [if_neg hmark]
        obtain ⟨d1, h1, h2, h3, h4⟩ := nextFaceLoop_total m hwf l false hok
        simp only [h1]
        have hpsi0 : psiTok m (l, false) = (d1.loop, true) := by
          simp [psiTok, h1]
        have hm1 : ¬ tokMarked st (d1.loop, true) := by
          intro hc
          have := (hgood.closed (l, false) hok).mpr (by rwa [hpsi0])
          exact hmark this
        have hassert : ¬ d1.loop ∈ st.exited := hm1
        rw [if_neg hassert]
        have hidx : (m.loopAt d1.loop).edgeIdx < tw.length := by
          rw [hlen]
          exact (hwf.1 d1.loop h4).2.1
        simp only [List.getElem?_eq_getElem hidx]
        set tw0 := tw[(m.loopAt d1.loop).edgeIdx] with htw0
        have hd2 : ∃ d2, (if tw0 = TWIST_CCW ∨ tw0 = TWIST_CW
              then nextEdgeLoop m d1 else some d1) = some d2 ∧
            d2.loop < m.loops.length ∧ is_boundary m d2.loop = false := by
          by_cases hcr : tw0 = TWIST_CCW ∨ tw0 = TWIST_CW
          · rw [if_pos hcr]
            obtain ⟨d2, ha, hb, hc⟩ := nextEdgeLoop_ok m hwf d1 h4 h3
            exact ⟨d2, ha, hb, hc⟩
          · rw [if_neg hcr]
            exact ⟨d1, rfl, h4, h3⟩
        obtain ⟨d2, hd2eq, hd2lt, hd2nb⟩ := hd2
        simp only [hd2eq]
        set st2 : VState :=
          { entered := l :: st.entered
            exited := d1.loop :: st.exited
            events := st.events ++ [.addLoop d1.loop d2.loop tw0 d2.forward] } with hst2
        have hchar : ∀ t, tokMarked st2 t ↔
            (tokMarked st t ∨ t = (l, false) ∨ t = (d1.loop, true)) := by
          rintro ⟨x, b⟩
          cases b <;> simp [tokMarked, hst2, List.mem_cons, or_comm, Prod.ext_iff]
        have hgood2 : GoodS m tw st2 := by
          refine ⟨?_, ?_, ?_, ?_, ?_, ?_, ?_⟩
          · intro x hx
            rcases List.mem_cons.mp hx with rfl | hx
            · exact ⟨h4, h3⟩
            · exact hgood.exited_ok x hx
          · intro x hx
            rcases List.mem_cons.mp hx with rfl | hx
            · exact ⟨hok.1, hok.2⟩
            · exact hgood.entered_ok x hx
          · exact List.Nodup.cons hassert hgood.exited_nd
          · exact List.Nodup.cons hmark hgood.entered_nd
          · exact closed_insert_pair m hwf st st2 (l, false) hok hgood.closed
              (by rw [hpsi0]; exact hchar)
          · have hc := hgood.count
            simp only [hst2, List.countP_append, List.length_cons]
            simp [Event.isAdd]
            omega
          · intro ev hev
            rcases List.mem_append.mp hev with hev | hev
            · exact hgood.events_ok ev hev
            · rcases List.mem_singleton.mp hev with rfl
              exact ⟨h4, h3, by rw [List.getElem?_eq_getElem hidx]⟩
        have hunm : unmarkedCount m st2 + 2 = unmarkedCount m st := by
          refine unmarked_insert m st st2 (l, false) (d1.loop, true)
            (by simp) hok ⟨h4, h3⟩ hmark hm1 hchar
        obtain ⟨st', hs1, hs2, hs3, hs4, hs5, evs, hs6⟩ :=
          ih d2 st2 hgood2 ⟨hd2lt, hd2nb⟩ (by omega)
        refine ⟨st', hs1, hs2, ?_, ?_, ?_, ?_⟩
        · intro x hx
          exact hs3 x (by simp [hst2, List.mem_cons, hx])
        · intro x hx
          exact hs4 x (by simp [hst2, List.mem_cons, hx])
        · exact hs4 l (by simp [hst2])
        · exact ⟨.addLoop d1.loop d2.loop tw0 d2.forward :: evs,
            by rw [hs6]; simp [hst2]⟩

theorem goodS_events (m : BMesh) (tw : List Twist) (st : VState) (hgood : GoodS m tw st)
    (ev : Event) (hev : ev.isAdd = false) (hok : addOK m tw ev) :
    GoodS m tw { st with events := st.events ++ [ev] } := by
  refine ⟨hgood.exited_ok, hgood.entered_ok, hgood.exited_nd, hgood.entered_nd,
    hgood.closed, ?_, ?_⟩
  · have hc := hgood.count
    simp only [List.countP_append]
    simp [List.countP_cons, hev]
    omega
  · intro e he
    rcases List.mem_append.mp he with he | he
    · exact hgood.events_ok e he
    · rcases List.mem_singleton.mp he with rfl
      exact hok

theorem unmarkedCount_events (m : BMesh) (st : VState) (evs : List Event) :
    unmarkedCount m { st with events := evs } = unmarkedCount m st := rfl

theorem makeLoop_spec (m : BMesh) (tw : List Twist) (hwf : WF m)
    (hlen : tw.length = m.edges.length) (fuel : Nat) (d : DLoop) (st : VState)
    (hgood : GoodS m tw st) (hok : okTok m (d.loop, d.forward))
    (hfuel : unmarkedCount m st < fuel) :
    ∃ st', makeLoop m tw fuel d st = some st' ∧ GoodS m tw st' ∧
      (∀ l ∈ st.exited, l ∈ st'.exited) ∧
      (∀ l ∈ st.entered, l ∈ st'.entered) ∧
      tokMarked st' (d.loop, d.forward) ∧
      (∃ evs, st'.events = st.events ++ evs) := by
  have hgoodS : GoodS m tw { st with events := st.events ++ [.startStrand] } :=
    goodS_events m tw st hgood .startStrand rfl trivial
  obtain ⟨st', h1, h2, h3, h4, h5, evs, h6⟩ :=
    makeLoopAux_spec m tw hwf hlen fuel d
      { st with events := st.events ++ [.startStrand] } hgoodS hok
      (by rw [unmarkedCount_events]; exact hfuel)
  refine ⟨{ st' with events := st'.events ++ [.endStrand] }, ?_, ?_, h3, h4, h5,
    Event.startStrand :: evs ++ [.endStrand], ?_⟩
  · rw [makeLoop, h1]
  · exact goodS_events m tw st' h2 .endStrand rfl trivial
  · simp only [h6]
    simp

theorem unmarkedCount_le (m : BMesh) (st : VState) :
    unmarkedCount m st ≤ 2 * m.loops.length := by
  have h1 : unmarkedCount m st ≤ (tokSet m).card := Finset.card_filter_le _ _
  have h2 : (tokSet m).card ≤ (Finset.range m.loops.length ×ˢ
      (Finset.univ : Finset Bool)).card := Finset.card_filter_le _ _
  rw [Finset.card_product, Finset.card_range, Finset.card_univ] at h2
  simp only [Fintype.card_bool] at h2
  omega

theorem visitLoopStart_spec (m : BMesh) (tw : List Twist) (hwf : WF m)
    (hlen : tw.length = m.edges.length) (st : VState) (l : Nat)
    (hl : l < m.loops.length) (hgood : GoodS m tw st) :
    ∃ st', visitLoopStart m tw (2 * m.loops.length + 1) st l = some st' ∧
      GoodS m tw st' ∧
      (∀ x ∈ st.exited, x ∈ st'.exited) ∧
      (∀ x ∈ st.entered, x ∈ st'.entered) ∧
      (is_boundary m l = false → l ∈ st'.exited ∧ l ∈ st'.entered) ∧
      (∃ evs, st'.events = st.events ++ evs) := by
  rw [visitLoopStart]
  by_cases hb : is_boundary m l
  · rw [if_pos hb]
    refine ⟨st, rfl, hgood, fun x h => h, fun x h => h, ?_, [], by simp⟩
    intro hc
    rw [hb] at hc
    exact Bool.noConfusion hc
  · rw [if_neg hb]
    have hbf : is_boundary m l = false := by
      cases hcase : is_boundary m l
      · rfl
      · exact absurd hcase hb
    have hok : okTok m (l, true) := ⟨hl, hbf⟩
    have hst1 : ∃ st1, (if l ∈ st.exited then some st else
          makeLoop m tw (2 * m.loops.length + 1) ⟨l, true⟩ st) = some st1 ∧
        GoodS m tw st1 ∧ (∀ x ∈ st.exited, x ∈ st1.exited) ∧
        (∀ x ∈ st.entered, x ∈ st1.entered) ∧ l ∈ st1.exited ∧
        (∃ evs, st1.events = st.events ++ evs) := by
      by_cases hmark : l ∈ st.exited
      · rw [if_pos hmark]
        exact ⟨st, rfl, hgood, fun x h => h, fun x h => h, hmark, [], by simp⟩
      · rw [if_neg hmark]
        obtain ⟨st1, h1, h2, h3, h4, h5, h6⟩ :=
          makeLoop_spec m tw hwf hlen (2 * m.loops.length + 1) ⟨l, true⟩ st hgood hok
            (by have := unmarkedCount_le m st; omega)
        exact ⟨st1, h1, h2, h3, h4, h5, h6⟩
    obtain ⟨st1, h1, h2, h3, h4, h5, h6⟩ := hst1
    simp only [h1]
    by_cases hmark2 : l ∈ st1.entered
    · rw [if_pos hmark2]
      exact ⟨st1, rfl, h2, h3, h4, fun _ => ⟨h5, hmark2⟩, h6⟩
    · rw [if_neg hmark2]
      obtain ⟨st2, g1, g2, g3, g4, g5, g6⟩ :=
        makeLoop_spec m tw hwf hlen (2 * m.loops.length + 1) ⟨l, false⟩ st1 h2
          ⟨hl, hbf⟩ (by have := unmarkedCount_le m st1; omega)
      refine ⟨st2, g1, g2, fun x hx => g3 x (h3 x hx), fun x hx => g4 x (h4 x hx),
        fun _ => ⟨g3 l h5, g5⟩, ?_⟩
      obtain ⟨evs1, he1⟩ := h6
      obtain ⟨evs2, he2⟩ := g6
      exact ⟨evs1 ++ evs2, by rw [he2, he1, List.append_assoc]⟩

theorem visit_fold_spec (m : BMesh) (tw : List Twist) (hwf : WF m)
    (hlen : tw.length = m.edges.length) :
    ∀ (ls : List Nat) (st : VState), GoodS m tw st →
      (∀ x ∈ ls, x < m.loops.length) →
      ∃ st', ls.foldlM (visitLoopStart m tw (2 * m.loops.length + 1)) st = some st' ∧
        GoodS m tw st' ∧
        (∀ x ∈ st.exited, x ∈ st'.exited) ∧
        (∀ x ∈ st.entered, x ∈ st'.entered) ∧
        (∀ x ∈ ls, is_boundary m x = false → x ∈ st'.exited ∧ x ∈ st'.entered) := by
  intro ls
  induction ls with
  | nil =>
    intro st hgood _
    exact ⟨st, rfl, hgood, fun x h => h, fun x h => h, by simp⟩
  | cons a ls' ih =>
    intro st hgood hbound
    obtain ⟨st1, h1, h2, h3, h4, h5, _⟩ :=
      visitLoopStart_spec m tw hwf hlen st a (hbound a (by simp)) hgood
    obtain ⟨st', g1, g2, g3, g4, g5⟩ :=
      ih st1 h2 (fun x hx => hbound x (by simp [hx]))
    refine ⟨st', ?_, g2, fun x hx => g3 x (h3 x hx), fun x hx => g4 x (h4 x hx), ?_⟩
    · rw [List.foldlM_cons, h1]
      exact g1
    · intro x hx hxb
      rcases List.mem_cons.mp hx with rfl | hx
      · obtain ⟨ha, hb⟩ := h5 hxb
        exact ⟨g3 x ha, g4 x hb⟩
      · exact g5 x hx hxb

/-- The complete behaviour of one `visit_strands` pass on a well-formed mesh
with a full twist assignment: it completes without any fault (in particular
the two re-entry assertions in `make_loop` never fire), the `loops_exited`
and `loops_entered` marks are duplicate-free and mark exactly the
non-boundary loops (each mark recorded by exactly one traversal step of
exactly one strand, with no omission and no duplication), the number of
`add_loop` events is exactly half the total mark count, and every `add_loop`
event carries the twist stored at its landing loop's edge. -/
theorem visit_strands_main (m : BMesh) (tw : List Twist) (hwf : WF m)
    (hlen : tw.length = m.edges.length) :
    ∃ st, visit_strands m tw = some st ∧
      st.exited.Nodup ∧ st.entered.Nodup ∧
      (∀ l, l ∈ st.exited ↔ (l < m.loops.length ∧ is_boundary m l = false)) ∧
      (∀ l, l ∈ st.entered ↔ (l < m.loops.length ∧ is_boundary m l = false)) ∧
      2 * st.events.countP Event.isAdd = st.exited.length + st.entered.length ∧
      (∀ ev ∈ st.events, addOK m tw ev) := by
  have hmem : ∀ x ∈ m.faces.flatten, x < m.loops.length := by
    intro x hx
    obtain ⟨fs, hfs, hxfs⟩ := List.mem_flatten.mp hx
    obtain ⟨fidx, hfidx, heq⟩ := List.getElem_of_mem hfs
    have : m.faceAt fidx = fs := by
      rw [BMesh.faceAt, List.getD_eq_getElem?_getD, List.getElem?_eq_getElem hfidx, heq]
      rfl
    exact face_mem_lt m hwf fidx hfidx x (by rwa [this])
  obtain ⟨st, h1, h2, h3, h4, h5⟩ :=
    visit_fold_spec m tw hwf hlen m.faces.flatten initVState (goodS_init m tw) hmem
  refine ⟨st, h1, h2.exited_nd, h2.entered_nd, ?_, ?_, h2.count, h2.events_ok⟩
  · intro l
    constructor
    · exact h2.exited_ok l
    · rintro ⟨hl, hnb⟩
      have hin : l ∈ m.faces.flatten := by
        have hfl : (m.loopAt l).faceIdx < m.faces.length := (hwf.1 l hl).2.2
        refine List.mem_flatten.mpr ⟨m.faceAt (m.loopAt l).faceIdx, ?_,
          hwf.2.2.1 l hl⟩
        rw [BMesh.faceAt, List.getD_eq_getElem?_getD, List.getElem?_eq_getElem hfl]
        exact List.getElem_mem hfl
      exact (h5 l hin hnb).1
  · intro l
    constructor
    · exact h2.entered_ok l
    · rintro ⟨hl, hnb⟩
      have hin : l ∈ m.faces.flatten := by
        have hfl : (m.loopAt l).faceIdx < m.faces.length := (hwf.1 l hl).2.2
        refine List.mem_flatten.mpr ⟨m.faceAt (m.loopAt l).faceIdx, ?_,
          hwf.2.2.1 l hl⟩
        rw [BMesh.faceAt, List.getD_eq_getElem?_getD, List.getElem?_eq_getElem hfl]
        exact List.getElem_mem hfl
      exact (h5 l hin hnb).2

/-- C1: a single `visit_strands` pass on a well-formed mesh, for any
per-edge twist assignment, visits every non-boundary (loop, direction) pair
exactly once across the strands it produces: the pass completes with the
re-entry assertions never firing (the run is `some`, while any assertion
failure yields `none`), the forward marks (`loops_exited`) and backward
marks (`loops_entered`) are duplicate-free lists covering exactly the
non-boundary loops — no omission, no duplication — and the total number of
traversal steps (`add_loop` events) is exactly half the number of marks, so
each step consumed exactly one (loop, direction) pair on each side. -/
theorem visit_strands_exactly_once (m : BMesh) (tw : List Twist) (hwf : WF m)
    (hlen : tw.length = m.edges.length) :
    ∃ st, visit_strands m tw = some st ∧
      st.exited.Nodup ∧ st.entered.Nodup ∧
      (∀ l, l ∈ st.exited ↔ (l < m.loops.length ∧ is_boundary m l = false)) ∧
      (∀ l, l ∈ st.entered ↔ (l < m.loops.length ∧ is_boundary m l = false)) ∧
      2 * st.events.countP Event.isAdd = st.exited.length + st.entered.length := by
  obtain ⟨st, h1, h2, h3, h4, h5, h6, _⟩ := visit_strands_main m tw hwf hlen
  exact ⟨st, h1, h2, h3, h4, h5, h6⟩

/-! ## The twill twist assignment (`get_twill_twists`) -/

/-- The `Votes` helper class: cw / ccw tallies with componentwise `+`. -/
structure Votes where
  cw : Nat
  ccw : Nat
deriving DecidableEq, Repr, Inhabited

def Votes.add (a b : Votes) : Votes := ⟨a.cw + b.cw, a.ccw + b.ccw⟩

/-- `move(d) = d.next_face_loop.next_edge_loop`. -/
def move (m : BMesh) (fuel : Nat) (d : DLoop) : Option DLoop :=
  (nextFaceLoop m fuel d).bind (nextEdgeLoop m)

/-- `swap(d) = d.next_edge_loop`. -/
def swap (m : BMesh) (d : DLoop) : Option DLoop := nextEdgeLoop m d

/-- `edge_cond_vote(dloop)`. -/
def edge_cond_vote (m : BMesh) (coloring : List (Option Twist)) (fuel : Nat)
    (dloop : DLoop) : Option Votes := do
  let next1 ← move m fuel dloop
  let next2 ← move m fuel next1
  match coloring.getD (m.loopAt next1.loop).edgeIdx none,
        coloring.getD (m.loopAt next2.loop).edgeIdx none with
  | none, _ => pure ⟨0, 0⟩
  | _, none => pure ⟨0, 0⟩
  | some t1, some t2 =>
    if t1 = TWIST_CW ∧ t2 = TWIST_CW then pure ⟨0, 1⟩
    else if t1 = TWIST_CCW ∧ t2 = TWIST_CCW then pure ⟨1, 0⟩
    else if t1 = TWIST_CW then pure ⟨1, 0⟩
    else pure ⟨0, 1⟩

/-- `face_cond_vote(dloop)`. -/
def face_cond_vote (m : BMesh) (coloring : List (Option Twist)) (fuel : Nat)
    (dloop : DLoop) : Option Votes := do
  let s ← move m fuel dloop
  let sw1 ← swap m dloop.reversed
  let p ← move m fuel sw1
  let sw2 ← swap m s
  let f2 ← move m fuel sw2
  match coloring.getD (m.loopAt s.loop).edgeIdx none,
        coloring.getD (m.loopAt p.loop).edgeIdx none,
        coloring.getD (m.loopAt f2.loop).edgeIdx none with
  | none, _, _ => pure ⟨0, 0⟩
  | _, none, _ => pure ⟨0, 0⟩
  | _, _, none => pure ⟨0, 0⟩
  | some ts, some tp, some tf =>
    if tp ≠ tf then
      if ts = TWIST_CW then pure ⟨1, 0⟩ else pure ⟨0, 1⟩
    else pure ⟨1, 1⟩

/-- `vert_cond_vote(dloop)`. -/
def vert_cond_vote (m : BMesh) (coloring : List (Option Twist)) (fuel : Nat)
    (dloop : DLoop) : Option Votes := do
  let s ← move m fuel dloop
  let sw1 ← swap m dloop
  let p ← move m fuel sw1
  let sw2 ← swap m s.reversed
  let f2 ← move m fuel sw2
  match coloring.getD (m.loopAt s.loop).edgeIdx none,
        coloring.getD (m.loopAt p.loop).edgeIdx none,
        coloring.getD (m.loopAt f2.loop).edgeIdx none with
  | none, _, _ => pure ⟨0, 0⟩
  | _, none, _ => pure ⟨0, 0⟩
  | _, _, none => pure ⟨0, 0⟩
  | some ts, some tp, some tf =>
    if tp ≠ tf then
      if ts = TWIST_CW then pure ⟨1, 0⟩ else pure ⟨0, 1⟩
    else pure ⟨1, 1⟩

/-- `count_votes(edge_index)`: sums the six condition votes over every loop
of the edge. -/
def count_votes (m : BMesh) (coloring : List (Option Twist)) (fuel : Nat)
    (edge_index : Nat) : Option Votes :=
  (m.edgeAt edge_index).link_loops.foldlM (fun acc l => do
    let v1 ← edge_cond_vote m coloring fuel ⟨l, true⟩
    let v2 ← edge_cond_vote m coloring fuel ⟨l, false⟩
    let v3 ← face_cond_vote m coloring fuel ⟨l, true⟩
    let v4 ← face_cond_vote m coloring fuel ⟨l, false⟩
    let v5 ← vert_cond_vote m coloring fuel ⟨l, true⟩
    let v6 ← vert_cond_vote m coloring fuel ⟨l, false⟩
    pure ((((((acc.add v1).add v2).add v3).add v4).add v5).add v6))
    (⟨0, 0⟩ : Votes)

/-- `v.link_edges`: the edges incident to a vertex, in edge-index order (our
embedding's stand-in for the bmesh disk-cycle order; the verified claims
depend only on which edges appear and on the head element being a single
arbitrary incident edge). -/
def linkEdges (m : BMesh) (v : Nat) : List Nat :=
  (List.range m.edges.length).filter
    (fun e => decide ((m.edgeAt e).v1 = v ∨ (m.edgeAt e).v2 = v))

/-- The mutable state of `get_twill_twists`: the coloring, the frontier set
(as a list), the vote cache (as an association list), and the position in
the oracle stream standing in for the seeded random generator. -/
structure TwillState where
  coloring : List (Option Twist)
  frontier : List Nat
  cache : List (Nat × Votes)
  ctr : Nat
deriving DecidableEq, Repr, Inhabited

/-- `cached_votes.pop(e, None)`. -/
def cachePop (cache : List (Nat × Votes)) (e : Nat) : List (Nat × Votes) :=
  cache.filter (fun kv => kv.1 ≠ e)

/-- The edges reachable within two vertex hops, in the nesting order of the
cache-invalidation loops of `color_edge`. -/
def twoHopEdges (m : BMesh) (e : Nat) : List Nat :=
  [(m.edgeAt e).v1, (m.edgeAt e).v2].flatMap (fun v1 =>
    (linkEdges m v1).flatMap (fun e2 =>
      [(m.edgeAt e2).v1, (m.edgeAt e2).v2].flatMap (fun v2 =>
        if v1 = v2 then [] else linkEdges m v2)))

/-- `color_edge(edge, twist)`: remove the edge from the frontier, record its
twist, add its endpoints' uncolored incident edges to the frontier, and
drop the cached votes of the edge and of everything within two hops. -/
def color_edge (m : BMesh) (st : TwillState) (e : Nat) (twist : Twist) : TwillState :=
  let fr1 := if e ∈ st.frontier then st.frontier.erase e else st.frontier
  let col1 := st.coloring.set e (some twist)
  let fr2 := (linkEdges m (m.edgeAt e).v1 ++ linkEdges m (m.edgeAt e).v2).foldl
    (fun fr o => if col1.getD o none = none ∧ o ∉ fr then fr ++ [o] else fr) fr1
  { coloring := col1
    frontier := fr2
    cache := (twoHopEdges m e).foldl cachePop (cachePop st.cache e)
    ctr := st.ctr }

/-- `random.choice(xs)` drawn from the oracle stream: element
`xs[oracle k % len(xs)]` and the advanced stream position; `none` on an
empty sequence. -/
def pick {α : Type} (oracle : Nat → Nat) (k : Nat) (xs : List α) : Option (α × Nat) :=
  match xs with
  | [] => none
  | x :: rest => some ((x :: rest).getD (oracle k % (x :: rest).length) x, k + 1)

/-- The seeding step of each component: `for e in v0.link_edges:
color_edge(e, TWIST_CW); break` — the body runs for the FIRST incident edge
only and then breaks (and not at all when the vertex has no incident
edges). -/
def twill_seed (m : BMesh) (st : TwillState) (v0 : Nat) : TwillState :=
  match linkEdges m v0 with
  | [] => st
  | e :: _ => color_edge m st e TWIST_CW

/-- One iteration of the `for e in list(frontier)` boundary-clearing scan:
color the edge IGNORE when its first loop is a boundary loop; `none` models
the `IndexError` of `edge.link_loops[0]` on a wire edge. -/
def clearStep (m : BMesh) (acc : TwillState × Bool) (e : Nat) :
    Option (TwillState × Bool) :=
  match (m.edgeAt e).link_loops.head? with
  | none => none
  | some h =>
      if is_boundary m h then some (color_edge m acc.1 e IGNORE, true)
      else some acc

/-- One scan of `for e in list(frontier)`: iterates the snapshot of the
frontier with `clearStep`, tracking `found_boundaries`. -/
def clearPass (m : BMesh) (st : TwillState) : Option (TwillState × Bool) :=
  st.frontier.foldlM (clearStep m) (st, false)

/-- The `while True` rescan loop around `clearPass`. -/
def clearLoop (m : BMesh) : Nat → TwillState → Option TwillState
  | 0, _ => none
  | fuel + 1, st => do
    let r ← clearPass m st
    if r.2 then clearLoop m fuel r.1 else pure r.1

/-- `get_cached_vote(e)`: reuse a cached vote, else compute and memoise. -/
def get_cached_vote (m : BMesh) (coloring : List (Option Twist)) (fuel : Nat)
    (cache : List (Nat × Votes)) (e : Nat) : Option (Votes × List (Nat × Votes)) :=
  match cache.lookup e with
  | some v => some (v, cache)
  | none =>
    match count_votes m coloring fuel e with
    | none => none
    | some v => some (v, cache ++ [(e, v)])

/-- `votes = {e: get_cached_vote(e) for e in frontier}`. -/
def frontierVotes (m : BMesh) (fuel : Nat) :
    List Nat → TwillState → Option (List (Nat × Votes) × TwillState)
  | [], st => some ([], st)
  | e :: rest, st =>
    match get_cached_vote m st.coloring fuel st.cache e with
    | none => none
    | some (v, cache') =>
      match frontierVotes m fuel rest { st with cache := cache' } with
      | none => none
      | some (vs, st') => some ((e, v) :: vs, st')

/-- The `while frontier` loop: clear boundary frontier edges, compute votes
for the remaining frontier, and color the best-voted edge (ties broken by
the oracle); `none` also models the `ValueError` of `max()` when the
boundary clearing emptied the frontier. -/
def twillInner (m : BMesh) (oracle : Nat → Nat) (nflFuel clFuel : Nat) :
    Nat → TwillState → Option TwillState
  | 0, _ => none
  | fuel + 1, st =>
    if st.frontier = [] then some st
    else do
      let st1 ← clearLoop m clFuel st
      let r ← frontierVotes m nflFuel st1.frontier st1
      match r.1 with
      | [] => none
      | v0 :: vrest =>
        let mx := ((v0 :: vrest).map (fun kv => max kv.2.cw kv.2.ccw)).foldl max 0
        let best := (v0 :: vrest).filter
          (fun kv => decide (kv.2.cw = mx ∨ kv.2.ccw = mx))
        let p ← pick oracle r.2.ctr best
        let set_twist := if p.1.2.ccw < p.1.2.cw then TWIST_CW else TWIST_CCW
        twillInner m oracle nflFuel clFuel fuel
          (color_edge m { r.2 with ctr := p.2 } p.1.1 set_twist)

/-- The outer per-component loop of `get_twill_twists`. -/
def twillOuter (m : BMesh) (oracle : Nat → Nat) (nflFuel clFuel innerFuel : Nat) :
    Nat → TwillState → Option TwillState
  | 0, _ => none
  | fuel + 1, st =>
    let uncolored := (List.range st.coloring.length).filter
      (fun i => st.coloring.getD i none = none)
    if uncolored = [] then some st
    else do
      let p1 ← pick oracle st.ctr uncolored
      let p2 ← pick oracle p1.2 [(m.edgeAt p1.1).v1, (m.edgeAt p1.1).v2]
      let st2 := twill_seed m { st with ctr := p2.2 } p2.1
      let st3 ← twillInner m oracle nflFuel clFuel innerFuel st2
      twillOuter m oracle nflFuel clFuel innerFuel fuel st3

/-- `get_twill_twists(bm)`: run the component loop from the all-uncolored
state and check the final `assert all(coloring)`; the oracle stream stands
in for the generator seeded by `seed(0)`. -/
def get_twill_twists (m : BMesh) (oracle : Nat → Nat) : Option (List Twist) := do
  let st0 : TwillState := ⟨List.replicate m.edges.length none, [], [], 0⟩
  let st ← twillOuter m oracle m.loops.length (m.edges.length + 1)
    (m.edges.length + 1) (m.edges.length + 1) st0
  if st.coloring.all (fun c => c.isSome) then pure st.coloring.reduceOption
  else none

theorem getD_set_gen {α : Type} (l : List α) (i e : Nat) (v d : α) :
    (l.set i v).getD e d = if i = e ∧ i < l.length then v else l.getD e d := by
  rw [List.getD_eq_getElem?_getD, List.getElem?_set, List.getD_eq_getElem?_getD]
  by_cases h1 : i = e
  · subst h1
    by_cases h2 : i < l.length
    · simp [h2]
    · have hn : l[i]? = none := List.getElem?_eq_none (by omega)
      simp [h2, hn]
  · simp [h1]

/-- C2 (amended): the seeding step of a twill component colors exactly ONE
edge — the first entry of the seed vertex's incident-edge list — with
`TWIST_CW`, leaving the coloring of every other edge unchanged (the
`for ...: color_edge(...); break` loop body runs once); when the vertex has
no incident edges nothing is colored. -/
theorem twill_seed_spec (m : BMesh) (st : TwillState) (v0 e0 : Nat)
    (rest : List Nat) (h : linkEdges m v0 = e0 :: rest) :
    (twill_seed m st v0).coloring = st.coloring.set e0 (some TWIST_CW) ∧
    ((twill_seed m st v0).coloring.getD e0 none
        = if e0 < st.coloring.length then some TWIST_CW
          else st.coloring.getD e0 none) ∧
    (∀ e, e ≠ e0 →
      (twill_seed m st v0).coloring.getD e none = st.coloring.getD e none) := by
  have hseed : twill_seed m st v0 = color_edge m st e0 TWIST_CW := by
    rw [twill_seed, h]
  have hcol : (twill_seed m st v0).coloring = st.coloring.set e0 (some TWIST_CW) := by
    rw [hseed, color_edge]
  refine ⟨hcol, ?_, ?_⟩
  · rw [hcol, getD_set_gen]
    by_cases h2 : e0 < st.coloring.length
    · simp [h2]
    · simp [h2]
  · intro e hne
    rw [hcol, getD_set_gen, if_neg (fun hc => hne hc.1.symm)]

/-- C2 counterexample: on the tetrahedron with seed vertex 0, edges 0, 1 and
2 are all incident to the vertex and all non-boundary (their first loop has
a radial partner), yet after the seeding step edge 1 is still uncolored —
refuting "labels all its incident non-boundary edges ClockwiseOver". -/
theorem twill_seed_not_all :
    ¬ (∀ e ∈ linkEdges tetMesh 0,
        ((tetMesh.edgeAt e).link_loops ≠ [] ∧
          is_boundary tetMesh ((tetMesh.edgeAt e).link_loops.getD 0 0) = false) →
        (twill_seed tetMesh ⟨List.replicate 6 none, [], [], 0⟩ 0).coloring.getD e none
          = some TWIST_CW) := by
  decide

/-- The invariant behind C10 for twill colorings: IGNORE is only ever
recorded for an edge whose first radial loop is a boundary loop (the exact
guard of the boundary-clearing step, the only call site passing IGNORE). -/
def twillInv (m : BMesh) (coloring : List (Option Twist)) : Prop :=
  ∀ e, coloring.getD e none = some IGNORE →
    ((m.edgeAt e).link_loops ≠ [] ∧
      is_boundary m ((m.edgeAt e).link_loops.getD 0 0) = true)

theorem color_edge_inv (m : BMesh) (st : TwillState) (e : Nat) (t : Twist)
    (ht : t ≠ IGNORE) (hinv : twillInv m st.coloring) :
    twillInv m (color_edge m st e t).coloring := by
  intro e' h
  rw [color_edge] at h
  simp only at h
  rw [getD_set_gen] at h
  by_cases hc : e = e' ∧ e < st.coloring.length
  · rw [if_pos hc] at h
    exact absurd (Option.some_inj.mp h) ht
  · rw [if_neg hc] at h
    exact hinv e' h

theorem color_edge_inv_ignore (m : BMesh) (st : TwillState) (e : Nat)
    (hcond : (m.edgeAt e).link_loops ≠ [] ∧
      is_boundary m ((m.edgeAt e).link_loops.getD 0 0) = true)
    (hinv : twillInv m st.coloring) :
    twillInv m (color_edge m st e IGNORE).coloring := by
  intro e' h
  rw [color_edge] at h
  simp only at h
  rw [getD_set_gen] at h
  by_cases hc : e = e' ∧ e < st.coloring.length
  · rw [← hc.1]
    exact hcond
  · rw [if_neg hc] at h
    exact hinv e' h

theorem clearStep_inv (m : BMesh) (acc : TwillState × Bool) (e : Nat)
    (r : TwillState × Bool) (h : clearStep m acc e = some r)
    (hinv : twillInv m acc.1.coloring) : twillInv m r.1.coloring := by
  rw [clearStep] at h
  cases hh : (m.edgeAt e).link_loops.head? with
  | none =>
    simp only [hh] at h
    exact Option.noConfusion h
  | some hd =>
    simp only [hh] at h
    have hgd : (m.edgeAt e).link_loops.getD 0 0 = hd := by
      cases hcase : (m.edgeAt e).link_loops with
      | nil => rw [hcase] at hh; exact Option.noConfusion hh
      | cons a as =>
        rw [hcase] at hh
        cases hh
        rfl
    by_cases hb : is_boundary m hd
    · rw [if_pos hb] at h
      cases h
      refine color_edge_inv_ignore m acc.1 e ⟨?_, by rw [hgd]; exact hb⟩ hinv
      intro hc
      rw [hc] at hh
      exact Option.noConfusion hh
    · rw [if_neg hb] at h
      cases h
      exact hinv

theorem foldlM_clearStep_inv (m : BMesh) :
    ∀ (fr : List Nat) (acc : TwillState × Bool) (r : TwillState × Bool),
      fr.foldlM (clearStep m) acc = some r → twillInv m acc.1.coloring →
      twillInv m r.1.coloring := by
  intro fr
  induction fr with
  | nil =>
    intro acc r h hinv
    cases h
    exact hinv
  | cons e rest ih =>
    intro acc r h hinv
    rw [List.foldlM_cons] at h
    cases hstep : clearStep m acc e with
    | none =>
      simp only [hstep, Option.bind_eq_bind, Option.none_bind] at h
      exact Option.noConfusion h
    | some acc1 =>
      simp only [hstep, Option.bind_eq_bind, Option.some_bind] at h
      exact ih acc1 r h (clearStep_inv m acc e acc1 hstep hinv)

theorem clearLoop_inv (m : BMesh) :
    ∀ (fuel : Nat) (st : TwillState) (r : TwillState),
      clearLoop m fuel st = some r → twillInv m st.coloring →
      twillInv m r.coloring := by
  intro fuel
  induction fuel with
  | zero => intro st r h _; exact Option.noConfusion h
  | succ fuel' ih =>
    intro st r h hinv
    rw [clearLoop] at h
    cases hp : clearPass m st with
    | none =>
      simp only [hp, Option.bind_eq_bind, Option.none_bind] at h
      exact Option.noConfusion h
    | some p =>
      simp only [hp, Option.bind_eq_bind, Option.some_bind] at h
      have hinv1 : twillInv m p.1.coloring :=
        foldlM_clearStep_inv m st.frontier (st, false) p hp hinv
      by_cases hf : p.2
      · simp only [hf, if_true] at h
        exact ih p.1 r h hinv1
      · simp only [hf, Bool.false_eq_true, if_false, Option.pure_def] at h
        cases h
        exact hinv1

theorem frontierVotes_coloring (m : BMesh) (fuel : Nat) :
    ∀ (fr : List Nat) (st : TwillState) (r : List (Nat × Votes) × TwillState),
      frontierVotes m fuel fr st = some r → r.2.coloring = st.coloring := by
  intro fr
  induction fr with
  | nil =>
    intro st r h
    cases h
    rfl
  | cons e rest ih =>
    intro st r h
    rw [frontierVotes] at h
    cases hg : get_cached_vote m st.coloring fuel st.cache e with
    | none =>
      simp only [hg] at h
      exact Option.noConfusion h
    | some vc =>
      simp only [hg] at h
      cases hf : frontierVotes m fuel rest { st with cache := vc.2 } with
      | none =>
        rw [hf] at h
        exact Option.noConfusion h
      | some vs =>
        rw [hf] at h
        cases h
        exact ih { st with cache := vc.2 } vs hf

theorem twillInner_inv (m : BMesh) (oracle : Nat → Nat) (nflFuel clFuel : Nat) :
    ∀ (fuel : Nat) (st : TwillState) (r : TwillState),
      twillInner m oracle nflFuel clFuel fuel st = some r →
      twillInv m st.coloring → twillInv m r.coloring := by
  intro fuel
  induction fuel with
  | zero => intro st r h _; exact Option.noConfusion h
  | succ fuel' ih =>
    intro st r h hinv
    rw [twillInner] at h
    by_cases hfr : st.frontier = []
    · rw [if_pos hfr] at h
      cases h
      exact hinv
    · rw [if_neg hfr] at h
      cases hcl : clearLoop m clFuel st with
      | none =>
        simp only [hcl, Option.bind_eq_bind, Option.none_bind] at h
        exact Option.noConfusion h
      | some st1 =>
        simp only [hcl, Option.bind_eq_bind, Option.some_bind] at h
        have hinv1 := clearLoop_inv m clFuel st st1 hcl hinv
        cases hfv : frontierVotes m nflFuel st1.frontier st1 with
        | none =>
          simp only [hfv, Option.bind_eq_bind, Option.none_bind] at h
          exact Option.noConfusion h
        | some rv =>
          simp only [hfv, Option.bind_eq_bind, Option.some_bind] at h
          have hinv2 : twillInv m rv.2.coloring := by
            rw [frontierVotes_coloring m nflFuel st1.frontier st1 rv hfv]
            exact hinv1
          cases hr1 : rv.1 with
          | nil =>
            simp only [hr1] at h
            exact Option.noConfusion h
          | cons v0 vrest =>
            simp only [hr1] at h
            cases hp : pick oracle rv.2.ctr
              ((v0 :: vrest).filter (fun kv => decide (kv.2.cw =
                ((v0 :: vrest).map (fun kv => max kv.2.cw kv.2.ccw)).foldl max 0 ∨
                kv.2.ccw =
                ((v0 :: vrest).map (fun kv => max kv.2.cw kv.2.ccw)).foldl max 0))) with
            | none =>
              simp only [hp, Option.bind_eq_bind, Option.none_bind] at h
              exact Option.noConfusion h
            | some pk =>
              simp only [hp, Option.bind_eq_bind, Option.some_bind] at h
              refine ih _ r h ?_
              refine color_edge_inv m _ _ _ ?_ hinv2
              by_cases hc : pk.1.2.ccw < pk.1.2.cw
              · rw [if_pos hc]
                intro hx
                exact Twist.noConfusion hx
              · rw [if_neg hc]
                intro hx
                exact Twist.noConfusion hx

theorem twill_seed_inv (m : BMesh) (st : TwillState) (v0 : Nat)
    (hinv : twillInv m st.coloring) : twillInv m (twill_seed m st v0).coloring := by
  rw [twill_seed]
  cases hle : linkEdges m v0 with
  | nil => exact hinv
  | cons e rest =>
    exact color_edge_inv m st e TWIST_CW (fun hx => Twist.noConfusion hx) hinv

theorem twillOuter_inv (m : BMesh) (oracle : Nat → Nat)
    (nflFuel clFuel innerFuel : Nat) :
    ∀ (fuel : Nat) (st : TwillState) (r : TwillState),
      twillOuter m oracle nflFuel clFuel innerFuel fuel st = some r →
      twillInv m st.coloring → twillInv m r.coloring := by
  intro fuel
  induction fuel with
  | zero => intro st r h _; exact Option.noConfusion h
  | succ fuel' ih =>
    intro st r h hinv
    rw [twillOuter] at h
    by_cases hu : (List.range st.coloring.length).filter
        (fun i => st.coloring.getD i none = none) = []
    · rw [if_pos hu] at h
      cases h
      exact hinv
    · rw [if_neg hu] at h
      cases hp1 : pick oracle st.ctr ((List.range st.coloring.length).filter
          (fun i => st.coloring.getD i none = none)) with
      | none =>
        simp only [hp1, Option.bind_eq_bind, Option.none_bind] at h
        exact Option.noConfusion h
      | some p1 =>
        simp only [hp1, Option.bind_eq_bind, Option.some_bind] at h
        cases hp2 : pick oracle p1.2 [(m.edgeAt p1.1).v1, (m.edgeAt p1.1).v2] with
        | none =>
          simp only [hp2, Option.bind_eq_bind, Option.none_bind] at h
          exact Option.noConfusion h
        | some p2 =>
          simp only [hp2, Option.bind_eq_bind, Option.some_bind] at h
          cases hin : twillInner m oracle nflFuel clFuel innerFuel
              (twill_seed m { st with ctr := p2.2 } p2.1) with
          | none =>
            simp only [hin, Option.bind_eq_bind, Option.none_bind] at h
            exact Option.noConfusion h
          | some st3 =>
            simp only [hin, Option.bind_eq_bind, Option.some_bind] at h
            refine ih st3 r h ?_
            exact twillInner_inv m oracle nflFuel clFuel innerFuel _ st3 hin
              (twill_seed_inv m { st with ctr := p2.2 } p2.1 hinv)

theorem reduceOption_getD (l : List (Option Twist))
    (hall : l.all (fun c => c.isSome) = true) :
    l.reduceOption.length = l.length ∧
    ∀ (e : Nat) (d : Twist), l.reduceOption.getD e d = (l.getD e (some d)).getD d := by
  induction l with
  | nil => exact ⟨rfl, fun e d => by cases e <;> rfl⟩
  | cons c rest ih =>
    rw [List.all_cons] at hall
    obtain ⟨hc, hrest⟩ := Bool.and_eq_true_iff.mp hall
    obtain ⟨x, hx⟩ := Option.isSome_iff_exists.mp hc
    subst hx
    obtain ⟨ih1, ih2⟩ := ih hrest
    constructor
    · simp only [List.reduceOption_cons_of_some, List.length_cons, ih1]
    · intro e d
      cases e with
      | zero => simp [List.reduceOption_cons_of_some]
      | succ e' =>
        rw [List.reduceOption_cons_of_some, List.getD_cons_succ, List.getD_cons_succ]
        exact ih2 e' d

/-- If a run of `get_twill_twists` succeeds, `IGNORE` appears in the result
only at edges whose first radial loop is a boundary loop — the guard of the
boundary-clearing step, the only place IGNORE is assigned. -/
theorem get_twill_twists_ignore_only_boundary (m : BMesh) (oracle : Nat → Nat)
    (tws : List Twist) (h : get_twill_twists m oracle = some tws) :
    ∀ e, tws.getD e IGNORE = IGNORE → e < tws.length →
      ((m.edgeAt e).link_loops ≠ [] ∧
        is_boundary m ((m.edgeAt e).link_loops.getD 0 0) = true) := by
  rw [get_twill_twists] at h
  cases ho : twillOuter m oracle m.loops.length (m.edges.length + 1)
      (m.edges.length + 1) (m.edges.length + 1)
      ⟨List.replicate m.edges.length none, [], [], 0⟩ with
  | none =>
    simp only [ho, Option.bind_eq_bind, Option.none_bind] at h
    exact Option.noConfusion h
  | some st =>
    simp only [ho, Option.bind_eq_bind, Option.some_bind] at h
    by_cases hall : st.coloring.all (fun c => c.isSome) = true
    · rw [if_pos hall, Option.pure_def] at h
      cases h
      have hinv : twillInv m st.coloring := by
        refine twillOuter_inv m oracle _ _ _ _ _ st ho ?_
        intro e he
        rw [List.getD_eq_getElem?_getD, List.getElem?_replicate] at he
        by_cases hc : e < m.edges.length
        · rw [if_pos hc] at he
          simp at he
        · rw [if_neg hc] at he
          exact Option.noConfusion he
      obtain ⟨hlen, hgd⟩ := reduceOption_getD st.coloring hall
      intro e hig helt
      have helt2 : e < st.coloring.length := by rwa [hlen] at helt
      have h2 := hgd e IGNORE
      rw [hig] at h2
      refine hinv e ?_
      rw [List.getD_eq_getElem?_getD] at h2 ⊢
      cases hx : st.coloring[e]? with
      | none =>
        rw [List.getElem?_eq_none_iff] at hx
        omega
      | some w =>
        have hmem : w ∈ st.coloring := List.getElem?_mem hx
        have hsome : w.isSome = true := by
          have := List.all_eq_true.mp hall w hmem
          simpa using this
        obtain ⟨v, rfl⟩ := Option.isSome_iff_exists.mp hsome
        rw [hx] at h2
        simp only [Option.getD_some] at h2 ⊢
        rw [← h2]
    · rw [if_neg hall] at h
      exact Option.noConfusion h

/-! ## C10: IGNORE never reaches `get_offset` during strand visiting -/

/-- `get_offset(weave_up, weave_down, twist, forward)`; the trailing
`assert False, "Unexpected twist type"` branch is modelled as `none`. -/
def get_offset (weave_up weave_down : ℚ) (twist : Twist) (forward : Bool) : Option ℚ :=
  if twist = TWIST_CW then some (if forward then weave_down else weave_up)
  else if twist = TWIST_CCW then some (if forward then weave_up else weave_down)
  else if twist = STRAIGHT then some ((weave_down + weave_up) / 2)
  else none

theorem get_medial_twill_twists_no_ignore (n : Nat) (fes : List (List Nat))
    (ofl : Nat) (e : Nat) (he : e < n) :
    (get_medial_twill_twists n fes ofl).getD e IGNORE = TWIST_CCW ∨
    (get_medial_twill_twists n fes ofl).getD e IGNORE = TWIST_CW := by
  rw [get_medial_twill_twists, foldl_faces_getD, List.length_replicate]
  by_cases hc : (∃ fe ∈ fes.take ofl, e ∈ fe) ∧ e < n
  · rw [if_pos hc]
    exact Or.inl rfl
  · rw [if_neg hc, List.getD_eq_getElem?_getD, List.getElem?_replicate, if_pos he]
    exact Or.inr rfl

theorem getD_head_mem {α : Type} (l : List α) (d : α) (h : l ≠ []) :
    l.getD 0 d ∈ l := by
  cases l with
  | nil => exact absurd rfl h
  | cons a as => exact List.mem_cons_self a as

/-- C10: on a well-formed mesh, whenever the twist list comes from one of
the three assigners — the plain-weave `get_celtic_twists` (any generator,
prior state and probability), a successful `get_twill_twists` run, or
`get_medial_twill_twists` — a completed `visit_strands` pass never passes
`twist = IGNORE` to `builder.add_loop`, and therefore `get_offset` succeeds
(its "Unexpected twist type" assertion is unreachable) at every emitted
loop. -/
theorem visit_strands_never_ignore (m : BMesh) (hwf : WF m) (tw : List Twist)
    (hlen : tw.length = m.edges.length)
    (hsrc : (∃ (σ : Type) (prng : PRNG σ) (g : σ) (p : ℚ),
                tw = get_celtic_twists prng g m p) ∨
            (∃ oracle : Nat → Nat, get_twill_twists m oracle = some tw) ∨
            (∃ (fes : List (List Nat)) (ofl : Nat),
                tw = get_medial_twill_twists m.edges.length fes ofl))
    (st : VState) (hrun : visit_strands m tw = some st) :
    ∀ ev ∈ st.events, ∀ p lp t fwd, ev = Event.addLoop p lp t fwd →
      t ≠ IGNORE ∧ (∀ wu wd : ℚ, (get_offset wu wd t fwd).isSome = true) := by
  obtain ⟨st0, h1, _, _, _, _, _, hev⟩ := visit_strands_main m tw hwf hlen
  rw [hrun] at h1
  cases h1
  intro ev hevmem p lp t fwd heq
  subst heq
  obtain ⟨hp1, hp2, hp3⟩ := hev _ hevmem
  have hedge : (m.loopAt p).edgeIdx < m.edges.length := (hwf.1 p hp1).2.1
  have hetw : (m.loopAt p).edgeIdx < tw.length := by omega
  have htval : tw.getD (m.loopAt p).edgeIdx IGNORE = t := by
    rw [List.getD_eq_getElem?_getD, hp3]
    rfl
  have hne : t ≠ IGNORE := by
    rcases hsrc with ⟨σ, prng, g, pr, hc⟩ | ⟨oracle, hc⟩ | ⟨fes, ofl, hc⟩
    · intro hig
      have hmemll := self_mem_link_loops m hwf p hp1
      have hll : (m.edgeAt (m.loopAt p).edgeIdx).link_loops ≠ [] := by
        intro hz
        rw [hz] at hmemll
        simp at hmemll
      obtain ⟨hiff, _⟩ := celticGo_spec prng pr m.edges (prng.seedFn 0)
        (m.loopAt p).edgeIdx hedge
      have hgd : tw.getD (m.loopAt p).edgeIdx STRAIGHT
          = tw.getD (m.loopAt p).edgeIdx IGNORE := by
        rw [List.getD_eq_getElem?_getD, List.getD_eq_getElem?_getD,
          List.getElem?_eq_getElem hetw]
        rfl
      have hc2 : tw = celticGo prng pr m.edges (prng.seedFn 0) := hc
      have : (m.edges.getD (m.loopAt p).edgeIdx default).link_loops = [] := by
        apply hiff.mp
        rw [← hc2, hgd, htval]
        exact hig
      exact hll this
    · intro hig
      have hbd := get_twill_twists_ignore_only_boundary m oracle tw hc
        (m.loopAt p).edgeIdx (by rw [htval, hig]) hetw
      obtain ⟨hll, hhead⟩ := hbd
      set h0 := (m.edgeAt (m.loopAt p).edgeIdx).link_loops.getD 0 0 with hh0
      have hh0mem : h0 ∈ (m.edgeAt (m.loopAt p).edgeIdx).link_loops :=
        getD_head_mem _ _ hll
      obtain ⟨hh0lt, hh0edge⟩ :=
        (hwf.2.2.2.2.2 (m.loopAt p).edgeIdx hedge).1 h0 hh0mem
      by_cases hsame : h0 = p
      · rw [hsame] at hhead
        rw [hhead] at hp2
        exact Bool.noConfusion hp2
      · have hpmem : p ∈ (m.loopAt h0).radial := by
          refine hwf.2.2.2.2.1 h0 hh0lt p hp1 ⟨fun hc2 => hsame hc2.symm, ?_⟩
          rw [hh0edge]
        have : is_boundary m h0 = false := by
          cases hr : (m.loopAt h0).radial with
          | nil => rw [hr] at hpmem; simp at hpmem
          | cons a as => rw [is_boundary, hr]; rfl
        rw [this] at hhead
        exact Bool.noConfusion hhead
    · intro hig
      have := get_medial_twill_twists_no_ignore m.edges.length fes ofl
        (m.loopAt p).edgeIdx hedge
      rw [← hc, htval, hig] at this
      rcases this with h | h
      · exact Twist.noConfusion h
      · exact Twist.noConfusion h
  refine ⟨hne, ?_⟩
  intro wu wd
  rw [get_offset]
  cases t with
  | TWIST_CW => rfl
  | STRAIGHT => rfl
  | TWIST_CCW => rfl
  | IGNORE => exact absurd rfl hne

/-! ## C6: StrandAnalysisBuilder and the greedy braid coloring -/

/-- `strand_part(prev_loop, loop, forward)`: `(forward,
frozenset((prev_loop.index, loop.index)))`; the (at most two element)
frozenset is represented as the ordered pair (min, max). -/
def strand_part (prev_loop loop : Nat) (forward : Bool) : Bool × Nat × Nat :=
  (forward, if prev_loop ≤ loop then (prev_loop, loop) else (loop, prev_loop))

/-- Append a value to a `defaultdict(list)` entry. -/
def alistAppend (xs : List (Nat × List Nat)) (k v : Nat) : List (Nat × List Nat) :=
  if (xs.lookup k).isSome
  then xs.map (fun el => if el.1 = k then (el.1, el.2 ++ [v]) else el)
  else xs ++ [(k, [v])]

/-- Set a key in a dict represented as an association list. -/
def alistSet (xs : List ((Bool × Nat × Nat) × Nat)) (k : Bool × Nat × Nat) (v : Nat) :
    List ((Bool × Nat × Nat) × Nat) :=
  if (xs.lookup k).isSome
  then xs.map (fun el => if el.1 = k then (el.1, v) else el)
  else xs ++ [(k, v)]

/-- Increment a `defaultdict(int)` entry. -/
def alistIncr (xs : List (Nat × Nat)) (k : Nat) : List (Nat × Nat) :=
  if (xs.lookup k).isSome
  then xs.map (fun el => if el.1 = k then (el.1, el.2 + 1) else el)
  else xs ++ [(k, 1)]

/-- The state of a `StrandAnalysisBuilder`. -/
structure SABState where
  crossings : List (Nat × List Nat)
  current_strand_index : Nat
  strand_indices : List ((Bool × Nat × Nat) × Nat)
  strand_size : List (Nat × Nat)
deriving DecidableEq, Repr, Inhabited

def SABState.init : SABState := ⟨[], 0, [], []⟩

/-- `StrandAnalysisBuilder.add_loop`. -/
def SAB_add_loop (m : BMesh) (st : SABState) (prev_loop loop : Nat) (twist : Twist)
    (forward : Bool) : SABState :=
  { st with
    crossings :=
      if twist ≠ STRAIGHT
      then alistAppend st.crossings (m.loopAt loop).edgeIdx st.current_strand_index
      else st.crossings
    strand_indices := alistSet st.strand_indices (strand_part prev_loop loop forward)
      st.current_strand_index
    strand_size := alistIncr st.strand_size st.current_strand_index }

/-- `StrandAnalysisBuilder.end_strand`. -/
def SAB_end_strand (st : SABState) : SABState :=
  { st with current_strand_index := st.current_strand_index + 1 }

/-- Feeding one tracer event to a `StrandAnalysisBuilder`
(`start_strand` is a no-op). -/
def SAB_step (m : BMesh) (st : SABState) : Event → SABState
  | .startStrand => st
  | .addLoop p lp t fwd => SAB_add_loop m st p lp t fwd
  | .endStrand => SAB_end_strand st

/-- Running a `StrandAnalysisBuilder` over a trace of builder events. -/
def runBuilder (m : BMesh) (evs : List Event) : SABState :=
  evs.foldl (SAB_step m) SABState.init

/-- `all_crossings()`: the set of unordered pairs of distinct strand indices
recorded on a common edge (pairs represented sorted; list may repeat
elements, which is harmless for the membership tests performed on it). -/
def all_crossings (cr : List (Nat × List Nat)) : List (Nat × Nat) :=
  cr.flatMap (fun el => el.2.flatMap (fun x => el.2.filterMap (fun y =>
    if x ≠ y then some (if x ≤ y then (x, y) else (y, x)) else none)))

/-- Two strand indices cross: both were recorded on a common edge. -/
def crosses (cr : List (Nat × List Nat)) (s t : Nat) : Prop :=
  ∃ el ∈ cr, s ∈ el.2 ∧ t ∈ el.2 ∧ s ≠ t

/-- `crossed_braids`: the braid ids already used by strands sharing a
crossing pair with `s` (`set(braids[t] for p in crossings if s in p
for t in p if t in braids)`). -/
def crossed_braids (crs : List (Nat × Nat)) (braids : List (Nat × Nat)) (s : Nat) :
    List Nat :=
  (crs.flatMap (fun p => if p.1 = s ∨ p.2 = s then [p.1, p.2] else [])).filterMap
    (fun t => braids.lookup t)

/-- The `for b in range(braid_count): ... else: b = braid_count` first-fit
search, returning the chosen id and the updated `braid_count`. -/
def firstFit (braid_count : Nat) (crossed : List Nat) : Nat × Nat :=
  match (List.range braid_count).find? (fun b => decide (b ∉ crossed)) with
  | some b => (b, braid_count)
  | none => (braid_count, braid_count + 1)

/-- One iteration of the strand loop in `get_braids`. -/
def braidStep (cr : List (Nat × List Nat)) (acc : List (Nat × Nat) × Nat) (s : Nat) :
    List (Nat × Nat) × Nat :=
  let crossed := crossed_braids (all_crossings cr) acc.1 s
  let fb := firstFit acc.2 crossed
  (acc.1 ++ [(s, fb.1)], fb.2)

/-- The strand-index → braid-id map built by `get_braids`. -/
def get_braids_ids (cr : List (Nat × List Nat)) (n : Nat) : List (Nat × Nat) :=
  ((List.range n).foldl (braidStep cr) ([], 0)).1

/-- `get_braids()`: the final dict from strand parts to braid ids
(`none` models the `defaultdict` quirk of producing the empty-list default
for a strand index never processed by the loop). -/
def get_braids (st : SABState) : List ((Bool × Nat × Nat) × Option Nat) :=
  st.strand_indices.map (fun kv =>
    (kv.1, (get_braids_ids st.crossings st.current_strand_index).lookup kv.2))

theorem lookup_append_some (l1 l2 : List (Nat × Nat)) (k v : Nat)
    (h : l1.lookup k = some v) : (l1 ++ l2).lookup k = some v := by
  induction l1 with
  | nil => simp [List.lookup] at h
  | cons x xs ih =>
    rw [List.lookup] at h
    rw [List.cons_append, List.lookup]
    by_cases hk : k = x.1
    · simp only [hk, beq_self_eq_true] at h ⊢
      exact h
    · have hb : (k == x.1) = false := beq_false_of_ne hk
      simp only [hb] at h ⊢
      exact ih h

theorem lookup_append_none (l1 l2 : List (Nat × Nat)) (k : Nat)
    (h : l1.lookup k = none) : (l1 ++ l2).lookup k = l2.lookup k := by
  induction l1 with
  | nil => rfl
  | cons x xs ih =>
    rw [List.lookup] at h
    rw [List.cons_append, List.lookup]
    by_cases hk : k = x.1
    · simp only [hk, beq_self_eq_true] at h
      exact Option.noConfusion h
    · have hb : (k == x.1) = false := beq_false_of_ne hk
      simp only [hb] at h ⊢
      exact ih h

theorem lookup_keys_none (l : List (Nat × Nat)) (k : Nat)
    (h : ∀ kv ∈ l, kv.1 ≠ k) : l.lookup k = none := by
  induction l with
  | nil => rfl
  | cons x xs ih =>
    rw [List.lookup]
    have hb : (k == x.1) = false := beq_false_of_ne (fun hc =>
      (h x (List.mem_cons_self x xs)) hc.symm)
    simp only [hb]
    exact ih (fun kv hkv => h kv (List.mem_cons_of_mem x hkv))

theorem lookup_mem_value (l : List (Nat × Nat)) (k v : Nat)
    (h : l.lookup k = some v) : (k, v) ∈ l := by
  induction l with
  | nil => simp [List.lookup] at h
  | cons x xs ih =>
    rw [List.lookup] at h
    by_cases hk : k = x.1
    · simp only [hk, beq_self_eq_true] at h
      cases h
      subst hk
      exact List.mem_cons_self x xs
    · have hb : (k == x.1) = false := beq_false_of_ne hk
      simp only [hb] at h
      exact List.mem_cons_of_mem x (ih h)

theorem find?_getD_min (p : Nat → Bool) :
    ∀ (l : List Nat) (b : Nat), l.find? p = some b →
      ∃ i, i < l.length ∧ l.getD i 0 = b ∧ p b = true ∧
        ∀ j < i, p (l.getD j 0) = false := by
  intro l
  induction l with
  | nil => intro b h; simp [List.find?] at h
  | cons x xs ih =>
    intro b h
    rw [List.find?_cons] at h
    cases hp : p x with
    | true =>
      rw [hp] at h
      cases h
      exact ⟨0, by simp, rfl, hp, fun j hj => by omega⟩
    | false =>
      rw [hp] at h
      obtain ⟨i, hi1, hi2, hi3, hi4⟩ := ih b h
      refine ⟨i + 1, by simpa using hi1, by simpa using hi2, hi3, ?_⟩
      intro j hj
      cases j with
      | zero => simpa using hp
      | succ j' =>
        rw [List.getD_cons_succ]
        exact hi4 j' (by omega)

theorem range_getD (n i : Nat) (hi : i < n) : (List.range n).getD i 0 = i := by
  rw [List.getD_eq_getElem?_getD, List.getElem?_range hi]
  rfl

/-- `firstFit` computes the least id not in `crossed`, provided every value
in `crossed` is an already-used id below `braid_count`. -/
theorem firstFit_least (bc : Nat) (crossed : List Nat)
    (hlt : ∀ c ∈ crossed, c < bc) :
    (firstFit bc crossed).1 ∉ crossed ∧
    (∀ b' < (firstFit bc crossed).1, b' ∈ crossed) ∧
    (firstFit bc crossed).1 ≤ bc ∧
    (firstFit bc crossed).2 = max bc ((firstFit bc crossed).1 + 1) := by
  cases hf : (List.range bc).find? (fun b => decide (b ∉ crossed)) with
  | some b =>
    have hff : firstFit bc crossed = (b, bc) := by rw [firstFit, hf]
    rw [hff]
    obtain ⟨i, hi1, hi2, hi3, hi4⟩ := find?_getD_min _ _ b hf
    rw [List.length_range] at hi1
    rw [range_getD bc i hi1] at hi2
    subst hi2
    refine ⟨by simpa using hi3, ?_, by omega, by simp; omega⟩
    intro b' hb'
    have hj := hi4 b' hb'
    rw [range_getD bc b' (by omega)] at hj
    simpa using hj
  | none =>
    have hff : firstFit bc crossed = (bc, bc + 1) := by rw [firstFit, hf]
    rw [hff]
    rw [List.find?_eq_none] at hf
    refine ⟨fun hc => absurd (hlt _ hc) (by omega), ?_, by omega, by simp⟩
    intro b' hb'
    have hj := hf b' (List.mem_range.mpr (by omega))
    simpa using hj

theorem crosses_symm (cr : List (Nat × List Nat)) (s t : Nat)
    (h : crosses cr s t) : crosses cr t s := by
  obtain ⟨el, h1, h2, h3, h4⟩ := h
  exact ⟨el, h1, h3, h2, fun hc => h4 hc.symm⟩

theorem mem_all_crossings_sound (cr : List (Nat × List Nat)) (p : Nat × Nat)
    (h : p ∈ all_crossings cr) : crosses cr p.1 p.2 ∧ p.1 ≠ p.2 := by
  rw [all_crossings] at h
  obtain ⟨el, hel, h2⟩ := List.mem_flatMap.mp h
  obtain ⟨x, hx, h3⟩ := List.mem_flatMap.mp h2
  obtain ⟨y, hy, h4⟩ := List.mem_filterMap.mp h3
  by_cases hne : x ≠ y
  · rw [if_pos hne] at h4
    by_cases hle : x ≤ y
    · rw [if_pos hle] at h4
      cases h4
      exact ⟨⟨el, hel, hx, hy, hne⟩, hne⟩
    · rw [if_neg hle] at h4
      cases h4
      exact ⟨⟨el, hel, hy, hx, fun hc => hne hc.symm⟩, fun hc => hne hc.symm⟩
  · rw [if_neg hne] at h4
    exact Option.noConfusion h4

theorem mem_all_crossings_complete (cr : List (Nat × List Nat)) (x y : Nat)
    (h : crosses cr x y) :
    (if x ≤ y then (x, y) else (y, x)) ∈ all_crossings cr := by
  obtain ⟨el, hel, hx, hy, hne⟩ := h
  rw [all_crossings]
  refine List.mem_flatMap.mpr ⟨el, hel, ?_⟩
  refine List.mem_flatMap.mpr ⟨x, hx, ?_⟩
  refine List.mem_filterMap.mpr ⟨y, hy, ?_⟩
  rw [if_pos hne]

theorem crossed_braids_iff (cr : List (Nat × List Nat)) (braids : List (Nat × Nat))
    (s : Nat) (hs : braids.lookup s = none) (b : Nat) :
    b ∈ crossed_braids (all_crossings cr) braids s ↔
      ∃ t, crosses cr s t ∧ braids.lookup t = some b := by
  rw [crossed_braids]
  constructor
  · intro h
    obtain ⟨t, ht, hlook⟩ := List.mem_filterMap.mp h
    obtain ⟨p, hp, htp⟩ := List.mem_flatMap.mp ht
    obtain ⟨hcross, hne⟩ := mem_all_crossings_sound cr p hp
    by_cases hps : p.1 = s ∨ p.2 = s
    · rw [if_pos hps] at htp
      have hts : t ≠ s := by
        intro hc
        rw [hc, hs] at hlook
        exact Option.noConfusion hlook
      rcases hps with hp1 | hp2
      · rcases List.mem_cons.mp htp with heq | htp
        · rw [heq] at hts
          exact absurd hp1 hts
        · have heq2 : t = p.2 := List.mem_singleton.mp htp
          rw [hp1] at hcross
          rw [heq2] at hlook
          exact ⟨p.2, hcross, hlook⟩
      · rcases List.mem_cons.mp htp with heq | htp
        · have hcross2 := crosses_symm cr p.1 p.2 hcross
          rw [hp2] at hcross2
          rw [heq] at hlook
          exact ⟨p.1, hcross2, hlook⟩
        · have heq2 : t = p.2 := List.mem_singleton.mp htp
          rw [heq2] at hts
          exact absurd hp2 hts
    · rw [if_neg hps] at htp
      simp at htp
  · rintro ⟨t, hcross, hlook⟩
    refine List.mem_filterMap.mpr ⟨t, ?_, hlook⟩
    refine List.mem_flatMap.mpr ⟨if s ≤ t then (s, t) else (t, s), ?_, ?_⟩
    · exact mem_all_crossings_complete cr s t hcross
    · by_cases hle : s ≤ t
      · rw [if_pos hle, if_pos (Or.inl rfl)]
        simp
      · rw [if_neg hle, if_pos (Or.inr rfl)]
        simp

theorem braidFold_inv (cr : List (Nat × List Nat)) :
    ∀ k : Nat,
      (((List.range k).foldl (braidStep cr) ([], 0)).1.map Prod.fst = List.range k) ∧
      (∀ kv ∈ ((List.range k).foldl (braidStep cr) ([], 0)).1,
          kv.2 < ((List.range k).foldl (braidStep cr) ([], 0)).2) ∧
      (∀ s < k, ∃ b,
        ((List.range k).foldl (braidStep cr) ([], 0)).1.lookup s = some b ∧
        (∀ t < s, crosses cr s t →
          ((List.range k).foldl (braidStep cr) ([], 0)).1.lookup t ≠ some b) ∧
        (∀ b' < b, ∃ t, t < s ∧ crosses cr s t ∧
          ((List.range k).foldl (braidStep cr) ([], 0)).1.lookup t = some b')) := by
  intro k
  induction k with
  | zero => exact ⟨rfl, by simp, by omega⟩
  | succ k' ih =>
    obtain ⟨ihk, ihv, ihs⟩ := ih
    have hfold : (List.range (k' + 1)).foldl (braidStep cr) ([], 0)
        = braidStep cr ((List.range k').foldl (braidStep cr) ([], 0)) k' := by
      rw [List.range_succ, List.foldl_append, List.foldl_cons, List.foldl_nil]
    set braids := ((List.range k').foldl (braidStep cr) ([], 0)).1 with hbr
    set bc := ((List.range k').foldl (braidStep cr) ([], 0)).2 with hbc
    have hkeylt : ∀ kv ∈ braids, kv.1 < k' := by
      intro kv hkv
      have : kv.1 ∈ braids.map Prod.fst := List.mem_map_of_mem Prod.fst hkv
      rw [ihk] at this
      exact List.mem_range.mp this
    have hlookk : braids.lookup k' = none :=
      lookup_keys_none braids k' (fun kv hkv => by have := hkeylt kv hkv; omega)
    have hcrossed_lt : ∀ c ∈ crossed_braids (all_crossings cr) braids k', c < bc := by
      intro c hc
      obtain ⟨t, _, hlook⟩ := (crossed_braids_iff cr braids k' hlookk c).mp hc
      exact ihv (t, c) (lookup_mem_value braids t c hlook)
    obtain ⟨hff1, hff2, hff3, hff4⟩ :=
      firstFit_least bc (crossed_braids (all_crossings cr) braids k') hcrossed_lt
    set bstar := (firstFit bc (crossed_braids (all_crossings cr) braids k')).1 with hbstar
    have hstep : braidStep cr ((List.range k').foldl (braidStep cr) ([], 0)) k'
        = (braids ++ [(k', bstar)],
           (firstFit bc (crossed_braids (all_crossings cr) braids k')).2) := by
      rw [braidStep]
    have hlookup_old : ∀ t < k', ∃ bt, braids.lookup t = some bt := by
      intro t ht
      obtain ⟨bt, hbt, _⟩ := ihs t ht
      exact ⟨bt, hbt⟩
    refine ⟨?_, ?_, ?_⟩
    · rw [hfold, hstep]
      simp only [List.map_append, List.map_cons, List.map_nil]
      rw [ihk, List.range_succ]
    · rw [hfold, hstep]
      intro kv hkv
      rcases List.mem_append.mp hkv with hkv | hkv
      · have := ihv kv hkv
        simp only [hff4]
        omega
      · rcases List.mem_singleton.mp hkv with rfl
        simp only [hff4]
        omega
    · intro s hs
      rw [hfold, hstep]
      rcases Nat.lt_or_ge s k' with hsk | hsk
      · obtain ⟨b, hb1, hb2, hb3⟩ := ihs s hsk
        refine ⟨b, lookup_append_some _ _ _ _ hb1, ?_, ?_⟩
        · intro t ht hcross
          obtain ⟨bt, hbt⟩ := hlookup_old t (by omega)
          rw [lookup_append_some _ _ _ _ hbt]
          have := hb2 t ht hcross
          rw [hbt] at this
          exact this
        · intro b' hb'
          obtain ⟨t, ht1, ht2, ht3⟩ := hb3 b' hb'
          exact ⟨t, ht1, ht2, lookup_append_some _ _ _ _ ht3⟩
      · have hseq : s = k' := by omega
        subst hseq
        have hlooknew : (braids ++ [(s, bstar)]).lookup s = some bstar := by
          rw [lookup_append_none _ _ _ hlookk, List.lookup]
          simp
        refine ⟨bstar, hlooknew, ?_, ?_⟩
        · intro t ht hcross
          obtain ⟨bt, hbt⟩ := hlookup_old t ht
          rw [lookup_append_some _ _ _ _ hbt]
          intro hc
          injection hc with hbb
          rw [hbb] at hbt
          exact hff1 ((crossed_braids_iff cr braids s hlookk bstar).mpr
            ⟨t, hcross, hbt⟩)
        · intro b' hb'
          have hmem := hff2 b' hb'
          obtain ⟨t, hcross, hlook⟩ :=
            (crossed_braids_iff cr braids s hlookk b').mp hmem
          have htk : t < s := hkeylt (t, b') (lookup_mem_value braids t b' hlook)
          exact ⟨t, htk, hcross, lookup_append_some _ _ _ _ hlook⟩

/-- C6: on any crossing record accumulated by a `StrandAnalysisBuilder`
(strand indices below `current_strand_index`), `get_braids` assigns braid
ids by greedy first-fit in strand creation order — each strand receives the
smallest non-negative integer not already used by any earlier strand it
crosses — and consequently any two distinct strands recorded on a common
crossing edge receive different braid ids. -/
theorem get_braids_first_fit (st : SABState)
    (hvals : ∀ el ∈ st.crossings, ∀ v ∈ el.2, v < st.current_strand_index) :
    (∀ s < st.current_strand_index, ∃ b,
        (get_braids_ids st.crossings st.current_strand_index).lookup s = some b ∧
        (∀ t < s, crosses st.crossings s t →
          (get_braids_ids st.crossings st.current_strand_index).lookup t ≠ some b) ∧
        (∀ b' < b, ∃ t, t < s ∧ crosses st.crossings s t ∧
          (get_braids_ids st.crossings st.current_strand_index).lookup t = some b')) ∧
    (∀ el ∈ st.crossings, ∀ s1 ∈ el.2, ∀ s2 ∈ el.2, s1 ≠ s2 →
        (get_braids_ids st.crossings st.current_strand_index).lookup s1
          ≠ (get_braids_ids st.crossings st.current_strand_index).lookup s2) := by
  obtain ⟨hkeys, hv, hmin⟩ := braidFold_inv st.crossings st.current_strand_index
  have hids : get_braids_ids st.crossings st.current_strand_index
      = ((List.range st.current_strand_index).foldl (braidStep st.crossings)
          ([], 0)).1 := rfl
  constructor
  · intro s hsn
    obtain ⟨b, hb1, hb2, hb3⟩ := hmin s hsn
    exact ⟨b, by rw [hids]; exact hb1, by rw [hids]; exact hb2,
      by rw [hids]; exact hb3⟩
  · intro el hel s1 hs1 s2 hs2 hne
    have hcross12 : crosses st.crossings s1 s2 := ⟨el, hel, hs1, hs2, hne⟩
    have hs1n : s1 < st.current_strand_index := hvals el hel s1 hs1
    have hs2n : s2 < st.current_strand_index := hvals el hel s2 hs2
    rw [hids]
    rcases Nat.lt_or_ge s1 s2 with hlt | hge
    · obtain ⟨b, hb1, hb2, _⟩ := hmin s2 hs2n
      obtain ⟨b1, hb1a, _, _⟩ := hmin s1 hs1n
      rw [hb1, hb1a]
      intro hc
      injection hc with hc2
      rw [← hc2] at hb1
      exact hb2 s1 hlt (crosses_symm _ _ _ hcross12) (by rw [hb1a, hc2])
    · have hlt : s2 < s1 := by omega
      obtain ⟨b, hb1, hb2, _⟩ := hmin s1 hs1n
      obtain ⟨b2, hb2a, _, _⟩ := hmin s2 hs2n
      rw [hb1, hb2a]
      intro hc
      injection hc with hc2
      exact hb2 s2 hlt hcross12 (by rw [hb2a, ← hc2])

/-! ## Concrete witnesses -/

/-- A twist list for running the tracer on the tetrahedron. -/
def tw6 : List Twist := List.replicate 6 TWIST_CW

/-- A concrete generator model: the state is the number of draws made so far
and every draw returns 1/2. -/
def constPRNG : PRNG Nat := ⟨fun k => k, fun s => ((1 : ℚ) / 2, s + 1)⟩

theorem constPRNG_range : ∀ s : Nat, 0 ≤ (constPRNG.next s).1 ∧ (constPRNG.next s).1 < 1 :=
  fun _ => by constructor <;> norm_num [constPRNG]

/-- An all-uncolored twill state for the tetrahedron's six edges. -/
def twillSt0 : TwillState := ⟨List.replicate 6 none, [], [], 0⟩

/-- A medial-style twist assignment for the tetrahedron (no remeshed faces,
so every edge gets `TWIST_CW`). -/
def twM : List Twist := get_medial_twill_twists tetMesh.edges.length [] 0

/-- A concrete builder state: strands 0 and 1 cross on edge 0. -/
def sabEx : SABState := ⟨[(0, [0, 1])], 2, [], []⟩

/-- Instantiation of C5 on the tetrahedron. -/
theorem remesh_midedge_subdivision_spec_witness :
    WF tetMesh ∧
    ((remesh_midedge_subdivision tetMesh).1.length
        = tetMesh.verts.length + tetMesh.edges.length ∧
    (remesh_midedge_subdivision tetMesh).2.length = tetMesh.faces.length ∧
    (∀ v < tetMesh.verts.length,
        (remesh_midedge_subdivision tetMesh).1.getD v default
          = tetMesh.verts.getD v default) ∧
    (∀ e < tetMesh.edges.length,
        (remesh_midedge_subdivision tetMesh).1.getD (tetMesh.verts.length + e) default
          = edge_midpoint tetMesh (tetMesh.edges.getD e default)) ∧
    (∀ f < tetMesh.faces.length,
      ((remesh_midedge_subdivision tetMesh).2.getD f []).length
          = 2 * (tetMesh.faceAt f).length ∧
      ∀ i < (tetMesh.faceAt f).length,
        ((remesh_midedge_subdivision tetMesh).2.getD f []).getD (2 * i) 0
            = (tetMesh.loopAt ((tetMesh.faceAt f).getD i 0)).vertIdx ∧
        ((remesh_midedge_subdivision tetMesh).2.getD f []).getD (2 * i) 0
            < tetMesh.verts.length ∧
        ((remesh_midedge_subdivision tetMesh).2.getD f []).getD (2 * i + 1) 0
            = tetMesh.verts.length
                + (tetMesh.loopAt ((tetMesh.faceAt f).getD i 0)).edgeIdx ∧
        tetMesh.verts.length
            ≤ ((remesh_midedge_subdivision tetMesh).2.getD f []).getD (2 * i + 1) 0)) :=
  ⟨tetMesh_wf, remesh_midedge_subdivision_spec tetMesh tetMesh_wf⟩

/-- Instantiation of C7 on the tetrahedron with the concrete generator,
any prior state and probability 1. -/
theorem get_celtic_twists_spec_witness :
    (∀ s : Nat, 0 ≤ (constPRNG.next s).1 ∧ (constPRNG.next s).1 < 1) ∧
    ((get_celtic_twists constPRNG 0 tetMesh 1).length = tetMesh.edges.length ∧
    ∀ e < tetMesh.edges.length,
      ((get_celtic_twists constPRNG 0 tetMesh 1).getD e STRAIGHT = IGNORE
          ↔ (tetMesh.edgeAt e).link_loops = []) ∧
      ((tetMesh.edgeAt e).link_loops ≠ [] →
        (get_celtic_twists constPRNG 0 tetMesh 1).getD e STRAIGHT
          = (if prngDraw constPRNG (constPRNG.seedFn 0)
                ((tetMesh.edges.take e).countP (fun ed => !ed.link_loops.isEmpty)) < 1
             then TWIST_CW else STRAIGHT)) ∧
      ((tetMesh.edgeAt e).link_loops ≠ [] → (1 : ℚ) = 1 →
        (get_celtic_twists constPRNG 0 tetMesh 1).getD e STRAIGHT = TWIST_CW)) :=
  ⟨constPRNG_range, get_celtic_twists_spec constPRNG 0 tetMesh 1 constPRNG_range⟩

/-- Instantiation of C8 on the tetrahedron at loop 0, going forward. -/
theorem next_face_loop_spec_witness :
    WF tetMesh ∧ 0 < tetMesh.loops.length ∧
    (((∃ x ∈ tetMesh.faceAt (tetMesh.loopAt 0).faceIdx,
          is_boundary tetMesh x = false) →
      ∃ d', nextFaceLoop tetMesh tetMesh.loops.length ⟨0, true⟩ = some d' ∧
        d'.forward = true ∧ is_boundary tetMesh d'.loop = false ∧
        (tetMesh.loopAt d'.loop).radial ≠ [] ∧
        (tetMesh.edgeAt (tetMesh.loopAt d'.loop).edgeIdx).link_loops ≠ []) ∧
    ((∀ x ∈ tetMesh.faceAt (tetMesh.loopAt 0).faceIdx,
          is_boundary tetMesh x = true) →
      ∀ fuel, nextFaceLoop tetMesh fuel ⟨0, true⟩ = none)) :=
  ⟨tetMesh_wf, by decide, next_face_loop_spec tetMesh tetMesh_wf 0 true (by decide)⟩

/-- Instantiation of C1 on the tetrahedron with an all-`TWIST_CW` twist
list. -/
theorem visit_strands_exactly_once_witness :
    WF tetMesh ∧ tw6.length = tetMesh.edges.length ∧
    (∃ st, visit_strands tetMesh tw6 = some st ∧
      st.exited.Nodup ∧ st.entered.Nodup ∧
      (∀ l, l ∈ st.exited ↔ (l < tetMesh.loops.length ∧ is_boundary tetMesh l = false)) ∧
      (∀ l, l ∈ st.entered ↔ (l < tetMesh.loops.length ∧ is_boundary tetMesh l = false)) ∧
      2 * st.events.countP Event.isAdd = st.exited.length + st.entered.length) :=
  ⟨tetMesh_wf, by decide, visit_strands_exactly_once tetMesh tw6 tetMesh_wf (by decide)⟩

/-- Instantiation of the amended C2 on the tetrahedron: seeding at vertex 0
(incident edges 0, 1, 2) colors exactly edge 0. -/
theorem twill_seed_spec_witness :
    linkEdges tetMesh 0 = 0 :: [1, 2] ∧
    ((twill_seed tetMesh twillSt0 0).coloring
        = twillSt0.coloring.set 0 (some TWIST_CW) ∧
    ((twill_seed tetMesh twillSt0 0).coloring.getD 0 none
        = if 0 < twillSt0.coloring.length then some TWIST_CW
          else twillSt0.coloring.getD 0 none) ∧
    (∀ e, e ≠ 0 →
      (twill_seed tetMesh twillSt0 0).coloring.getD e none
        = twillSt0.coloring.getD e none)) :=
  ⟨by decide, twill_seed_spec tetMesh twillSt0 0 0 [1, 2] (by decide)⟩

/-- Instantiation of C10 on the tetrahedron with the medial-style twist
list. -/
theorem visit_strands_never_ignore_witness :
    WF tetMesh ∧ twM.length = tetMesh.edges.length ∧
    ∃ st, visit_strands tetMesh twM = some st ∧
      ∀ ev ∈ st.events, ∀ p lp t fwd, ev = Event.addLoop p lp t fwd →
        t ≠ IGNORE ∧ (∀ wu wd : ℚ, (get_offset wu wd t fwd).isSome = true) := by
  refine ⟨tetMesh_wf, by decide, ?_⟩
  obtain ⟨st, hrun, -, -, -, -, -, -⟩ := visit_strands_main tetMesh twM tetMesh_wf (by decide)
  exact ⟨st, hrun,
    visit_strands_never_ignore tetMesh tetMesh_wf twM (by decide)
      (Or.inr (Or.inr ⟨[], 0, rfl⟩)) st hrun⟩

/-- Instantiation of C6 on a concrete two-strand builder state. -/
theorem get_braids_first_fit_witness :
    (∀ el ∈ sabEx.crossings, ∀ v ∈ el.2, v < sabEx.current_strand_index) ∧
    ((∀ s < sabEx.current_strand_index, ∃ b,
        (get_braids_ids sabEx.crossings sabEx.current_strand_index).lookup s = some b ∧
        (∀ t < s, crosses sabEx.crossings s t →
          (get_braids_ids sabEx.crossings sabEx.current_strand_index).lookup t
            ≠ some b) ∧
        (∀ b' < b, ∃ t, t < s ∧ crosses sabEx.crossings s t ∧
          (get_braids_ids sabEx.crossings sabEx.current_strand_index).lookup t
            = some b')) ∧
    (∀ el ∈ sabEx.crossings, ∀ s1 ∈ el.2, ∀ s2 ∈ el.2, s1 ≠ s2 →
        (get_braids_ids sabEx.crossings sabEx.current_strand_index).lookup s1
          ≠ (get_braids_ids sabEx.crossings sabEx.current_strand_index).lookup s2)) :=
  ⟨by decide, get_braids_first_fit sabEx (by decide)⟩
